import Mathlib

set_option autoImplicit false
set_option maxRecDepth 10000

/-!
Verification of the in-memory document model in
`stanfordnlp/models/common/doc.py` (classes `Document`, `Sentence`, `Token`,
`Word`, `Span`).

The Python code is shallowly embedded: attribute values are modelled by
`Value` (Python `None`, `str` or `int`); a raised exception is modelled by
`Option`/`none`; every operation of the source becomes an executable Lean
function.  Known modelling simplifications are noted next to the definitions
they concern; none of them are exercised by the flows verified below.
-/

/-- A Python runtime value as stored in the attributes of the document model:
`None`, a string, or an integer.  Container values are never stored by the
modelled flows. -/
inductive Value where
  | vnone : Value
  | vstr : String → Value
  | vint : Int → Value
deriving DecidableEq, Repr

/-- Python truthiness of a `Value` (used by the `assert x and y` guards of the
`Word`/`Token` constructors). -/
def truthy : Value → Bool
  | .vnone => false
  | .vstr s => s ≠ ""
  | .vint n => n ≠ 0

/-- The `_is_null` helper shared by `Word` and `Token`:
`(value is None) or (value == '_')`. -/
def isNull (v : Value) : Bool := v = .vnone || v = .vstr "_"

/-- The uniform optional-field setter `value if self._is_null(value) == False
else None` used by `upos`, `xpos`, `feats`, `deprel`, `deps`, `misc`, `ner`. -/
def optVal (v : Value) : Value := if isNull v then .vnone else v

/-- Numeric value of a decimal digit character. -/
def digitVal (c : Char) : Nat := c.toNat - 48

/-- Value of a list of decimal digit characters, most significant first. -/
def decDigits (l : List Char) : Nat := l.foldl (fun a c => 10 * a + digitVal c) 0

/-- Python `int(s)` on a string: strip surrounding whitespace, then an optional
sign followed by at least one decimal digit.  (Python additionally accepts
underscore digit separators; those never occur in the verified flows and are
not modelled.) -/
def parseSigned : List Char → Option Int
  | [] => none
  | c :: rest =>
      if c = '-' then
        if rest ≠ [] && rest.all Char.isDigit then some (-(decDigits rest : Int)) else none
      else if c = '+' then
        if rest ≠ [] && rest.all Char.isDigit then some ((decDigits rest : Int)) else none
      else
        if (c :: rest).all Char.isDigit then some ((decDigits (c :: rest) : Int)) else none

/-- See `parseSigned`: strip surrounding whitespace, then parse an optional
sign followed by at least one decimal digit. -/
def parseIntChars (l : List Char) : Option Int :=
  parseSigned (((l.dropWhile Char.isWhitespace).reverse.dropWhile Char.isWhitespace).reverse)

/-- Python `int(value)`: an `int` is returned unchanged, a string is parsed,
anything else (in particular `None`) raises. -/
def pyInt : Value → Option Int
  | .vint n => some n
  | .vstr s => parseIntChars s.data
  | .vnone => none

/-- Helper for `pySplit`: split a character list at every separator, keeping
empty pieces, like Python `str.split(sep)`. -/
def splitCharAux (sep : Char) : List Char → List Char → List (List Char)
  | [], acc => [acc.reverse]
  | c :: cs, acc =>
      if c = sep then acc.reverse :: splitCharAux sep cs []
      else splitCharAux sep cs (c :: acc)

/-- Python `s.split(sep)` for a one-character separator. -/
def pySplit (sep : Char) (s : String) : List String :=
  (splitCharAux sep s.data []).map List.asString

/-- Decimal digit character for `d < 10`. -/
def digitChar (d : Nat) : Char := Char.ofNat (48 + d)

/-- Fuel-driven digit expansion of a natural number (fuel `n + 1` always
suffices, see `natCharsAux_fuel`). -/
def natCharsAux : Nat → Nat → List Char
  | 0, _ => []
  | fuel + 1, n =>
      if n < 10 then [digitChar n]
      else natCharsAux fuel (n / 10) ++ [digitChar (n % 10)]

/-- Python `str(n)` for a nonnegative integer. -/
def natStr (n : Nat) : String := (natCharsAux (n + 1) n).asString

/-- Match of the compiled pattern `([0-9]+)-([0-9]+)` via `re.match` (anchored
at the start only): a nonempty leading digit run, a dash, and a nonempty digit
run; the remaining characters are unconstrained.  Returns the two integer
groups. -/
def mwtIdMatch (s : String) : Option (Nat × Nat) :=
  let d1 := s.data.takeWhile Char.isDigit
  let r1 := s.data.dropWhile Char.isDigit
  if d1 = [] then none
  else
    match r1 with
    | '-' :: r2 =>
        let d2 := r2.takeWhile Char.isDigit
        if d2 = [] then none else some (decDigits d1, decDigits d2)
    | _ => none

/-- Helper for `mwtMiscMatch` on character lists: `re.match(".*MWT=Yes.*", s)`
succeeds iff `MWT=Yes` occurs as a substring with no newline before it
(`.` does not match a newline). -/
def mwtMiscChars : List Char → Bool
  | [] => false
  | c :: cs => "MWT=Yes".data.isPrefixOf (c :: cs) || (decide (c ≠ '\n') && mwtMiscChars cs)

/-- Match of the compiled pattern `.*MWT=Yes.*` via `re.match`. -/
def mwtMiscMatch (s : String) : Bool := mwtMiscChars s.data

/-- Python `s.startswith(pre)` (a structurally reducing definition). -/
def pyStartsWith (s pre : String) : Bool := pre.data.isPrefixOf s.data

/-- Python `s[2:]`, dropping the two-character BIOES prefix. -/
def pyDropTwo (s : String) : String := (s.data.drop 2).asString

/-- Python list indexing `l[i]` with an `int` index: negative indices count
from the end, out-of-range raises. -/
def pyIndex {α : Type} (l : List α) (i : Int) : Option α :=
  if 0 ≤ i then l.get? i.toNat
  else
    let j := (l.length : Int) + i
    if 0 ≤ j then l.get? j.toNat else none

/-- Clamp a Python slice bound to `[0, len]`. -/
def sliceNorm (len : Nat) (v : Int) : Nat :=
  if v < 0 then (max ((len : Int) + v) 0).toNat else min v.toNat len

/-- Python string slicing `s[a:b]` with optional integer bounds. -/
def pySliceStr (s : String) (a b : Option Int) : String :=
  let l := s.data
  let a1 := match a with | none => 0 | some i => sliceNorm l.length i
  let b1 := match b with | none => l.length | some i => sliceNorm l.length i
  ((l.drop a1).take (b1 - a1)).asString

/-- Python `text[a:b]` where all three operands are attribute values: the text
must be a string and each bound `None` or an `int`, otherwise a `TypeError`
is raised. -/
def pySliceV (text a b : Value) : Option Value :=
  match text, a, b with
  | .vstr s, .vnone, .vnone => some (.vstr (pySliceStr s none none))
  | .vstr s, .vnone, .vint m => some (.vstr (pySliceStr s none (some m)))
  | .vstr s, .vint n, .vnone => some (.vstr (pySliceStr s (some n) none))
  | .vstr s, .vint n, .vint m => some (.vstr (pySliceStr s (some n) (some m)))
  | _, _, _ => none

/-- Option-valued `mapM` with definitional equation lemmas. -/
def omapM {α β : Type} (f : α → Option β) : List α → Option (List β)
  | [] => some []
  | a :: l => do
      let b ← f a
      let l2 ← omapM f l
      pure (b :: l2)

/-- Option-valued `foldlM` with definitional equation lemmas. -/
def ofoldlM {α β : Type} (f : β → α → Option β) : β → List α → Option β
  | b, [] => some b
  | b, a :: l => do
      let b2 ← f b a
      ofoldlM f b2 l

/-- A CoNLL-U style entry dict, the `FieldRecord` of the model: each
recognized field name maps to an optional value (`none` models key absence;
`some .vnone` models an explicit `None` value). -/
structure Entry where
  id : Option Value := none
  text : Option Value := none
  lemm : Option Value := none
  upos : Option Value := none
  xpos : Option Value := none
  feats : Option Value := none
  head : Option Value := none
  deprel : Option Value := none
  deps : Option Value := none
  misc : Option Value := none
  ner : Option Value := none
deriving DecidableEq, Repr

/-- A `Word`: the stored underscore attributes of the Python class.
`parentStart`/`parentEnd` record the `start_char`/`end_char` of the parent
`Token` as observed through the `parent` back-reference (reads of
`word.parent.start_char` happen only after the parent token is fully
constructed, so copying the final offsets at parent assignment is faithful). -/
structure Word where
  id : Value := .vnone
  text : Value := .vnone
  lemm : Value := .vnone
  upos : Value := .vnone
  xpos : Value := .vnone
  feats : Value := .vnone
  head : Value := .vnone
  deprel : Value := .vnone
  deps : Value := .vnone
  misc : Value := .vnone
  ner : Value := .vnone
  parentStart : Value := .vnone
  parentEnd : Value := .vnone
deriving DecidableEq, Repr

/-- The `lemma` property setter:
`value if self._is_null(value) == False or self._text == '_' else None`,
evaluated against the current `text`. -/
def lemmaValOf (textv v : Value) : Value :=
  if !isNull v || textv = .vstr "_" then v else .vnone

/-- The `head` property setter:
`int(value) if self._is_null(value) == False else None`; parsing a
non-numeric value raises. -/
def headValOf (v : Value) : Option Value :=
  if isNull v then some .vnone else (pyInt v).map Value.vint

/-- Direct assignment `setattr(self, '_' + key, value)` performed by
`Word.init_from_misc` for each recognized attribute name; it bypasses the
property setters, storing the raw string.  The `_parent` attribute also
exists and is assignable, but the raw value stored there is overwritten by
the real parent assignment in every modelled flow, so the write is dropped. -/
def Word.miscAssign (w : Word) (k v : String) : Word :=
  if k = "id" then { w with id := .vstr v }
  else if k = "text" then { w with text := .vstr v }
  else if k = "lemma" then { w with lemm := .vstr v }
  else if k = "upos" then { w with upos := .vstr v }
  else if k = "xpos" then { w with xpos := .vstr v }
  else if k = "feats" then { w with feats := .vstr v }
  else if k = "head" then { w with head := .vstr v }
  else if k = "deprel" then { w with deprel := .vstr v }
  else if k = "deps" then { w with deps := .vstr v }
  else if k = "misc" then { w with misc := .vstr v }
  else if k = "ner" then { w with ner := .vstr v }
  else w

/-- One `item` of the pipe-separated misc string, as processed by
`Word.init_from_misc`: no `=` is skipped, exactly one `=` assigns, two or
more make the two-element unpacking raise `ValueError`. -/
def wordMiscStep (w : Word) (item : String) : Option Word :=
  match pySplit '=' item with
  | [_] => some w
  | [k, v] => some (w.miscAssign k v)
  | _ => none

/-- `Word.init_from_misc`: split the stored misc on `|` and process each item;
a non-string misc value raises at `.split`. -/
def Word.initFromMisc (w : Word) : Option Word :=
  match w.misc with
  | .vstr s => ofoldlM wordMiscStep w (pySplit '|' s)
  | _ => none

/-- `Word.__init__` from an entry dict: assert truthy `id` and `text`, run
every field through its property setter, then parse the misc mini-language
if misc is set. -/
def wordFromEntry (e : Entry) : Option Word := do
  if truthy (e.id.getD .vnone) && truthy (e.text.getD .vnone) then
    let hd ← headValOf (e.head.getD .vnone)
    let base : Word :=
      { id := e.id.getD .vnone
        text := e.text.getD .vnone
        lemm := lemmaValOf (e.text.getD .vnone) (e.lemm.getD .vnone)
        upos := optVal (e.upos.getD .vnone)
        xpos := optVal (e.xpos.getD .vnone)
        feats := optVal (e.feats.getD .vnone)
        head := hd
        deprel := optVal (e.deprel.getD .vnone)
        deps := optVal (e.deps.getD .vnone)
        misc := optVal (e.misc.getD .vnone)
        ner := optVal (e.ner.getD .vnone) }
    if base.misc ≠ .vnone then base.initFromMisc else pure base
  else none

/-- Keep a value only when it is not `None` (used by `to_dict`, which emits a
field iff `getattr(self, field) is not None`). -/
def optOf (v : Value) : Option Value := if v = .vnone then none else some v

/-- `Word.to_dict` with the default field list. -/
def Word.toDict (w : Word) : Entry :=
  { id := optOf w.id, text := optOf w.text, lemm := optOf w.lemm,
    upos := optOf w.upos, xpos := optOf w.xpos, feats := optOf w.feats,
    head := optOf w.head, deprel := optOf w.deprel, deps := optOf w.deps,
    misc := optOf w.misc, ner := optOf w.ner }

/-- A `Token`: stored attributes of the Python class; `words` is the owned
word list. -/
structure Token where
  id : Value := .vnone
  text : Value := .vnone
  misc : Value := .vnone
  words : List Word := []
  startChar : Value := .vnone
  endChar : Value := .vnone
deriving DecidableEq, Repr

/-- Attribute assignment performed by `Token.init_from_misc`: `start_char`
and `end_char` values are first converted with `int(...)` (raising on
failure); recognized attribute names are `_id`, `_text`, `_misc`, `_words`,
`_start_char`, `_end_char`.  A `words=` item would store a raw string over
the word list, making the token unusable downstream; it is modelled as a
failure since no verified flow constructs such a token. -/
def Token.miscAssign (t : Token) (k v : String) : Option Token :=
  if k = "start_char" then (pyInt (.vstr v)).map fun n => { t with startChar := .vint n }
  else if k = "end_char" then (pyInt (.vstr v)).map fun n => { t with endChar := .vint n }
  else if k = "id" then some { t with id := .vstr v }
  else if k = "text" then some { t with text := .vstr v }
  else if k = "misc" then some { t with misc := .vstr v }
  else if k = "words" then none
  else some t

/-- One misc item for `Token.init_from_misc`. -/
def tokenMiscStep (t : Token) (item : String) : Option Token :=
  match pySplit '=' item with
  | [_] => some t
  | [k, v] => t.miscAssign k v
  | _ => none

/-- `Token.init_from_misc`. -/
def Token.initFromMisc (t : Token) : Option Token :=
  match t.misc with
  | .vstr s => ofoldlM tokenMiscStep t (pySplit '|' s)
  | _ => none

/-- Record the parent token's character offsets in a word (the effect of
`word.parent = token` as observed by later reads). -/
def Word.withParent (st en : Value) (w : Word) : Word :=
  { w with parentStart := st, parentEnd := en }

/-- `Token.__init__` from an entry dict with an optional initial word list:
assert truthy `id` and `text`, store `misc` through its setter, parse the
misc mini-language, and let the `words` setter link each word back to this
token (reads of the parent offsets happen after construction, hence after
`init_from_misc` has set them). -/
def tokenFromEntry (e : Entry) (ws : List Word) : Option Token := do
  if truthy (e.id.getD .vnone) && truthy (e.text.getD .vnone) then
    let t0 : Token :=
      { id := e.id.getD .vnone, text := e.text.getD .vnone,
        misc := optVal (e.misc.getD .vnone), words := ws }
    let t ← if t0.misc ≠ .vnone then t0.initFromMisc else pure t0
    pure { t with words := t.words.map (Word.withParent t.startChar t.endChar) }
  else none

/-- `Token.to_dict` with the default field list: the token's own line is
emitted iff the token does not own exactly one word, followed by one line
per owned word. -/
def Token.toDict (t : Token) : List Entry :=
  (if t.words.length ≠ 1 then
    [{ id := optOf t.id, text := optOf t.text, misc := optOf t.misc }]
  else []) ++ t.words.map Word.toDict

/-- One dependency edge `(head word, relation, dependent word)`. -/
structure Dep where
  gov : Word
  rel : Value
  dep : Word
deriving DecidableEq, Repr

/-- A `Sentence`: stored attributes of the Python class. -/
structure Sentence where
  tokens : List Token := []
  words : List Word := []
  dependencies : List Dep := []
  text : Value := .vnone
deriving DecidableEq, Repr

/-- `Sentence.build_dependencies`: for each word, parse its head id; head 0
produces a fresh synthetic ROOT word, otherwise the word at position
`head - 1` is used after asserting that its id parses back to the head
value.  Any parse failure, bad index, or failed assert raises. -/
def buildDependencies (words : List Word) : Option (List Dep) :=
  ofoldlM
    (fun acc word => do
      let h ← pyInt word.head
      let gov ←
        if h = 0 then
          wordFromEntry { id := some (.vstr "0"), text := some (.vstr "ROOT") }
        else do
          let g ← pyIndex words (h - 1)
          let gi ← pyInt g.id
          if h = gi then pure g else none
      pure (acc ++ [⟨gov, word.deprel, word⟩]))
    [] words

/-- The loop state of `Sentence._process_tokens`: the open multi-word range
`st, en` and the token and word lists built so far. -/
structure PTState where
  st : Int
  en : Int
  tokens : List Token
  words : List Word
deriving DecidableEq, Repr

/-- One entry of the `Sentence._process_tokens` loop (entry index `i` is used
to synthesize a 1-based id when the entry has none).  A multi-word entry
(range id or `MWT=Yes` misc) becomes a shell token and updates the open
range; any other entry becomes a word, attached to the last token when its
id falls inside the open range and wrapped in a fresh token otherwise.
`re.match` on a non-string id or misc raises. -/
def processEntry (stt : PTState) (i : Nat) (e0 : Entry) : Option PTState := do
  let e := if e0.id = none then { e0 with id := some (.vstr (natStr (i + 1))) } else e0
  match e.id.getD .vnone with
  | .vstr ids => do
    let m := mwtIdMatch ids
    let n ←
      match e.misc.getD .vnone with
      | .vnone => pure false
      | .vstr ms => pure (mwtMiscMatch ms)
      | _ => none
    if m.isSome || n then do
      let t ← tokenFromEntry e []
      let stEn :=
        match m with
        | some (a, b) => ((a : Int), (b : Int))
        | none => (stt.st, stt.en)
      pure (PTState.mk stEn.1 stEn.2 (stt.tokens ++ [t]) stt.words)
    else do
      let w0 ← wordFromEntry e
      let idx ← pyInt (e.id.getD .vnone)
      if idx ≤ stt.en then do
        let last ← stt.tokens.getLast?
        let w1 := Word.withParent last.startChar last.endChar w0
        let t1 := { last with words := last.words ++ [w1] }
        pure (PTState.mk stt.st stt.en (stt.tokens.dropLast ++ [t1]) (stt.words ++ [w1]))
      else do
        let t ← tokenFromEntry e [w0]
        pure (PTState.mk stt.st stt.en (stt.tokens ++ [t])
          (stt.words ++ [Word.withParent t.startChar t.endChar w0]))
  | _ => none

/-- The `Sentence._process_tokens` loop over all entries. -/
def processTokensAux : PTState → Nat → List Entry → Option PTState
  | stt, _, [] => some stt
  | stt, i, e :: rest => do
      let stt2 ← processEntry stt i e
      processTokensAux stt2 (i + 1) rest

/-- `Sentence._process_tokens` run against an existing sentence: rebuild the
token and word lists, then rebuild the dependency graph iff every word has
non-null head and deprel and the word count equals the numeric id of the
last word (indexing the last word raises when there are no words).  When the
rebuild is skipped the previous `dependencies` value is left in place. -/
def Sentence.processTokensOn (s : Sentence) (entries : List Entry) : Option Sentence := do
  let fin ← processTokensAux ⟨-1, -1, [], []⟩ 0 entries
  let completeDeps := fin.words.all fun w => w.head ≠ .vnone && w.deprel ≠ .vnone
  let lastW ← pyIndex fin.words (-1)
  let lastId ← pyInt lastW.id
  let completeWords : Bool := (fin.words.length : Int) = lastId
  if completeDeps && completeWords then do
    let deps ← buildDependencies fin.words
    pure { s with tokens := fin.tokens, words := fin.words, dependencies := deps }
  else
    pure { s with tokens := fin.tokens, words := fin.words }

/-- `Sentence.__init__` from a list of entry dicts. -/
def mkSentence (entries : List Entry) : Option Sentence :=
  Sentence.processTokensOn {} entries

/-- `Sentence.to_dict`: concatenation of the per-token dumps. -/
def Sentence.toDict (s : Sentence) : List Entry :=
  (s.tokens.map Token.toDict).flatten

/-- An entity `Span` (the word-list construction path used by
`build_ents`). -/
structure Span where
  words : List Word := []
  type : Value := .vnone
  startChar : Value := .vnone
  endChar : Value := .vnone
  text : Value := .vnone
deriving DecidableEq, Repr

/-- A `Document`: stored attributes of the Python class. -/
structure Document where
  sentences : List Sentence := []
  text : Value := .vnone
  numWords : Nat := 0
  ents : List Span := []
deriving DecidableEq, Repr

/-- The per-sentence epilogue of `Document._process_sentences`: read the
first token's `start_char` and the last token's `end_char` (raising when the
sentence has no tokens), and slice the raw document text into the sentence
when the text and both offsets are set. -/
def sentenceWithDocText (docText : Value) (s : Sentence) : Option Sentence := do
  let firstTok ← pyIndex s.tokens 0
  let lastTok ← pyIndex s.tokens (-1)
  if docText ≠ .vnone && firstTok.startChar ≠ .vnone && lastTok.endChar ≠ .vnone then do
    let tx ← pySliceV docText firstTok.startChar lastTok.endChar
    pure { s with text := tx }
  else pure s

/-- `Document._process_sentences`: rebuild every sentence from its entry
list and recompute the document word count.  The entity list is untouched. -/
def Document.processSentences (d : Document) (sentences : List (List Entry)) :
    Option Document := do
  let ss ← omapM (fun entries => do
      sentenceWithDocText d.text (← mkSentence entries)) sentences
  pure { d with sentences := ss, numWords := (ss.map fun s => s.words.length).sum }

/-- `Document.__init__` from construction input and optional raw text. -/
def mkDocument (sentences : List (List Entry)) (text : Value) : Option Document :=
  Document.processSentences { text := text } sentences

/-- `Document.to_dict`. -/
def Document.toDict (d : Document) : List (List Entry) :=
  d.sentences.map Sentence.toDict

/-- Total number of words actually present in a document's sentences (the
value `num_words` is kept equal to by construction and reprocessing). -/
def totalWords (d : Document) : Nat :=
  (d.sentences.map fun s => s.words.length).sum

/-- The recognized per-word field names of the model (the `Word` members of
the closed field enumeration; `getattr`/`setattr` on any of them goes through
the corresponding property). -/
def wordFieldNames : List String :=
  ["id", "text", "lemma", "upos", "xpos", "feats", "head", "deprel", "deps", "misc", "ner"]

/-- `getattr(word, f)` for a recognized field name (including the `pos` alias
of `upos`).  Any other attribute access either raises or yields a non-value
object (`parent`); both are modelled as failure. -/
def Word.getAttr (w : Word) (f : String) : Option Value :=
  if f = "id" then some w.id
  else if f = "text" then some w.text
  else if f = "lemma" then some w.lemm
  else if f = "upos" then some w.upos
  else if f = "xpos" then some w.xpos
  else if f = "feats" then some w.feats
  else if f = "head" then some w.head
  else if f = "deprel" then some w.deprel
  else if f = "deps" then some w.deps
  else if f = "misc" then some w.misc
  else if f = "ner" then some w.ner
  else if f = "pos" then some w.upos
  else none

/-- `setattr(word, f, v)` for a recognized field name: each write goes
through the property setter.  (For an unrecognized name Python would attach
an ad-hoc instance attribute; the claims quantify only over valid field
names, so that path is modelled as failure.) -/
def Word.setAttr (w : Word) (f : String) (v : Value) : Option Word :=
  if f = "id" then some { w with id := v }
  else if f = "text" then some { w with text := v }
  else if f = "lemma" then some { w with lemm := lemmaValOf w.text v }
  else if f = "upos" then some { w with upos := optVal v }
  else if f = "xpos" then some { w with xpos := optVal v }
  else if f = "feats" then some { w with feats := optVal v }
  else if f = "head" then (headValOf v).map fun hv => { w with head := hv }
  else if f = "deprel" then some { w with deprel := optVal v }
  else if f = "deps" then some { w with deps := optVal v }
  else if f = "misc" then some { w with misc := optVal v }
  else if f = "ner" then some { w with ner := optVal v }
  else if f = "pos" then some { w with upos := optVal v }
  else none

/-- One row of `get`/`set` contents: a scalar when a single field is
requested, a list of values when several are. -/
inductive Row where
  | one : Value → Row
  | many : List Value → Row
deriving DecidableEq, Repr

/-- The projection `Document.get` performs per word: a lone field yields the
attribute value, several fields yield the list of attribute values. -/
def Word.project (fields : List String) (w : Word) : Option Row :=
  match fields with
  | [f] => (w.getAttr f).map Row.one
  | _ => (omapM w.getAttr fields).map Row.many

/-- `Document.get(fields)` with the default `as_sentences=False`: assert the
field list nonempty, then project every word in sentence order. -/
def Document.get (d : Document) (fields : List String) : Option (List Row) :=
  if fields = [] then none
  else omapM (Word.project fields) (d.sentences.map Sentence.words).flatten

/-- The iterable Python obtains when zipping `fields` with one contents row:
a list iterates its elements, a string iterates its characters (as 1-char
strings), anything else raises `TypeError`.  (Only reached when more than
one field is written.) -/
def rowIter : Row → Option (List Value)
  | .many vs => some vs
  | .one (.vstr s) => some (s.data.map fun c => .vstr (String.singleton c))
  | .one _ => none

/-- The write `Document.set` performs on one word: a lone field stores the
row's scalar (a row that is a Python list would be stored as-is, which the
value model cannot represent — no verified flow does this); several fields
are zipped with the row (truncating at the shorter) and written in order. -/
def Word.writeRow (fields : List String) (w : Word) (r : Row) : Option Word :=
  match fields with
  | [f] =>
      match r with
      | .one v => w.setAttr f v
      | .many _ => none
  | _ => do
      let vs ← rowIter r
      ofoldlM (fun w fv => w.setAttr fv.1 fv.2) w (fields.zip vs)

/-- Write rows into the words of one sentence, consuming the contents list;
exhausting the contents mid-sentence models the `IndexError` of
`contents[cidx]`. -/
def setWordsAux (fields : List String) : List Word → List Row → Option (List Word × List Row)
  | [], cs => some ([], cs)
  | _ :: _, [] => none
  | w :: ws, c :: cs => do
      let w2 ← Word.writeRow fields w c
      let (ws2, rest) ← setWordsAux fields ws cs
      pure (w2 :: ws2, rest)

/-- Thread the contents through every sentence in order. -/
def setSentencesAux (fields : List String) :
    List Sentence → List Row → Option (List Sentence × List Row)
  | [], cs => some ([], cs)
  | s :: ss, cs => do
      let (ws2, cs2) ← setWordsAux fields s.words cs
      let (ss2, cs3) ← setSentencesAux fields ss cs2
      pure ({ s with words := ws2 } :: ss2, cs3)

/-- `Document.set(fields, contents)`: assert the field list nonempty and the
contents length equal to `num_words`, then write one row per word in the
same traversal order `get` uses.  Word objects are shared between
`sentence.words` and `token.words`; the sentence word lists are the view
every later read in the verified flows goes through, so only they are
updated here. -/
def Document.set (d : Document) (fields : List String) (contents : List Row) :
    Option Document :=
  if fields = [] then none
  else if d.numWords ≠ contents.length then none
  else do
    let (ss2, _) ← setSentencesAux fields d.sentences contents
    pure { d with sentences := ss2 }

/-- Result of `Document.set_mwt_expansions`: normal return, the final count
assert failing (carrying the fully mutated and reprocessed document that the
caller observes after the raise), or any other exception along the way. -/
inductive MwtRes where
  | ok : Document → MwtRes
  | countMismatch : Document → MwtRes
  | err : MwtRes
deriving DecidableEq, Repr

/-- The misc rewrite of an expanded token:
`None if token.misc == 'MWT=Yes' else '|'.join(x for x in token.misc.split('|') if x != 'MWT=Yes')`,
the join being stored through the misc property setter.  A `None` misc here
raises at `.split` (a range-id token with no misc crashes this method). -/
def mwtStripMisc (t : Token) : Option Token :=
  match t.misc with
  | .vstr s =>
      if s = "MWT=Yes" then some { t with misc := .vnone }
      else
        let j := String.intercalate "|" ((pySplit '|' s).filter fun x => x ≠ "MWT=Yes")
        some { t with misc := optVal (.vstr j) }
  | _ => none

/-- One token of the `set_mwt_expansions` mutation loop.  `idxW` is the
per-sentence word counter before the increment at the top of the loop,
`idxE` the global count of expansions consumed.  A plain token has its
words renumbered to the token position and their dependency info cleared; a
multi-word token consumes the next expansion, splits it on single spaces
dropping empty pieces, rewrites its misc and range id, and replaces its
word list with fresh words carrying only ids and expansion texts (appended
directly, so no parent offsets are attached until reprocessing). -/
def mwtTokenStep (expansions : List String) (idxW idxE : Nat) (t : Token) :
    Option (Token × Nat × Nat) := do
  let idxW := idxW + 1
  match t.id with
  | .vstr ids => do
    let m := mwtIdMatch ids
    let n ←
      match t.misc with
      | .vnone => pure false
      | .vstr ms => pure (mwtMiscMatch ms)
      | _ => none
    if !m.isSome && !n then
      pure ({ t with words := t.words.map fun w =>
        { w with id := .vstr (natStr idxW), head := .vnone, deprel := .vnone } }, idxW, idxE)
    else do
      let exp ← expansions.get? idxE
      let expanded := (pySplit ' ' exp).filter fun x => x ≠ ""
      let idxWEnd := idxW + expanded.length - 1
      let t ← mwtStripMisc t
      let t := { t with id := .vstr (natStr idxW ++ "-" ++ natStr idxWEnd) }
      let newWords ← omapM
        (fun je => wordFromEntry
          { id := some (.vstr (natStr (idxW + je.1))), text := some (.vstr je.2) })
        expanded.enum
      pure ({ t with words := newWords }, idxWEnd, idxE + 1)
  | _ => none

/-- The token loop of `set_mwt_expansions` over one sentence's tokens. -/
def mwtTokensAux (expansions : List String) :
    List Token → Nat → Nat → Option (List Token × Nat)
  | [], _, idxE => some ([], idxE)
  | t :: ts, idxW, idxE => do
      let (t2, idxW2, idxE2) ← mwtTokenStep expansions idxW idxE t
      let (ts2, idxE3) ← mwtTokensAux expansions ts idxW2 idxE2
      pure (t2 :: ts2, idxE3)

/-- One sentence of `set_mwt_expansions`: mutate the tokens, then
`sentence._process_tokens(sentence.to_dict())` to rebuild the sentence's
word list (the dependency list is rebuilt only when complete, otherwise it
keeps its previous value). -/
def mwtSentenceStep (expansions : List String) (s : Sentence) (idxE : Nat) :
    Option (Sentence × Nat) := do
  let (ts2, idxE2) ← mwtTokensAux expansions s.tokens 0 idxE
  let sMut := { s with tokens := ts2 }
  let s2 ← sMut.processTokensOn sMut.toDict
  pure (s2, idxE2)

/-- The sentence loop of `set_mwt_expansions`. -/
def mwtSentencesAux (expansions : List String) :
    List Sentence → Nat → Option (List Sentence × Nat)
  | [], idxE => some ([], idxE)
  | s :: ss, idxE => do
      let (s2, idxE2) ← mwtSentenceStep expansions s idxE
      let (ss2, idxE3) ← mwtSentencesAux expansions ss idxE2
      pure (s2 :: ss2, idxE3)

/-- `Document.set_mwt_expansions(expansions)`: mutate and reprocess every
sentence, reprocess the document (`self._process_sentences(self.to_dict())`),
and only then assert that the number of expansions consumed equals the
number supplied.  A failed assert therefore observes the fully mutated
document. -/
def Document.setMwtExpansions (d : Document) (expansions : List String) : MwtRes :=
  match mwtSentencesAux expansions d.sentences 0 with
  | none => .err
  | some (ss2, idxE) =>
      let dMut := { d with sentences := ss2 }
      match dMut.processSentences dMut.toDict with
      | none => .err
      | some d2 => if idxE = expansions.length then .ok d2 else .countMismatch d2

/-- The multi-word test of `get_mwt_expansions`/`set_mwt_expansions` on a
token: a range-pattern id or a misc matching `.*MWT=Yes.*`.  `re.match` on a
non-string raises. -/
def Token.mwtFlag (t : Token) : Option Bool := do
  match t.id with
  | .vstr ids => do
    let n ←
      match t.misc with
      | .vnone => pure false
      | .vstr ms => pure (mwtMiscMatch ms)
      | _ => none
    pure ((mwtIdMatch ids).isSome || n)
  | _ => none

/-- `' '.join(word.text for word in token.words)`; joining raises when some
word text is not a string. -/
def Token.joinWordTexts (t : Token) : Option String :=
  (omapM (fun w => match w.text with | .vstr s => some s | _ => none) t.words).map
    (String.intercalate " ")

/-- One token of the `get_mwt_expansions` scan: append the
`(token text, joined word texts)` pair when the token is multi-word. -/
def mwtPairStep (acc : List (Value × String)) (t : Token) :
    Option (List (Value × String)) := do
  if (← t.mwtFlag) then
    pure (acc ++ [(t.text, ← t.joinWordTexts)])
  else pure acc

/-- `Document.get_mwt_expansions(evaluation=False)`: one
`(token text, joined word texts)` pair per multi-word token in document
order. -/
def Document.getMwtExpansions (d : Document) : Option (List (Value × String)) :=
  ofoldlM mwtPairStep [] (d.sentences.map Sentence.tokens).flatten

/-- The scan state of `Document.build_ents`: entities flushed so far, words
of the in-progress entity, and the current entity type. -/
structure EntState where
  ents : List Span := []
  entWords : List Word := []
  curType : Value := .vnone
deriving DecidableEq, Repr

/-- `Span.init_from_words` (via `Span(words=..., type=..., doc=...)`): assert
the word list nonempty, read the char range from the parent tokens of the
first and last word, and slice the document's raw text (raising when the
text is not a string). -/
def spanFromWords (docText : Value) (ws : List Word) (ty : Value) : Option Span :=
  match ws with
  | [] => none
  | w :: _ => do
      let lastW ← pyIndex ws (-1)
      let tx ← pySliceV docText w.parentStart lastW.parentEnd
      pure { words := ws, type := ty, startChar := w.parentStart,
             endChar := lastW.parentEnd, text := tx }

/-- The local `flush()` of `build_ents`: append a span built from the
accumulated words when there are any. -/
def entFlush (docText : Value) (st : EntState) : Option EntState :=
  if st.entWords = [] then some st
  else (spanFromWords docText st.entWords st.curType).map fun sp =>
    { st with ents := st.ents ++ [sp] }

/-- One word of the `build_ents` scan, decoding the BIOES tag in `w.ner`:
`None` skips the word entirely, `O` flushes, `B-`/`I-`/`E-`/`S-` behave as
in the source, any other string falls through all branches and changes
nothing; a non-string tag raises at `.startswith`. -/
def buildEntsStep (docText : Value) (st : EntState) (w : Word) : Option EntState :=
  match w.ner with
  | .vnone => some st
  | .vstr s =>
      if s = "O" then do
        let st2 ← entFlush docText st
        pure { st2 with entWords := [] }
      else if pyStartsWith s "B-" then do
        let st2 ← entFlush docText st
        pure { st2 with entWords := [w], curType := .vstr (pyDropTwo s) }
      else if pyStartsWith s "I-" then
        pure { st with entWords := st.entWords ++ [w], curType := .vstr (pyDropTwo s) }
      else if pyStartsWith s "E-" then do
        let st2 := { st with entWords := st.entWords ++ [w], curType := .vstr (pyDropTwo s) }
        let st3 ← entFlush docText st2
        pure { st3 with entWords := [] }
      else if pyStartsWith s "S-" then do
        let st2 ← entFlush docText st
        let st3 := { st2 with entWords := [w], curType := .vstr (pyDropTwo s) }
        let st4 ← entFlush docText st3
        pure { st4 with entWords := [] }
      else some st
  | .vint _ => none

/-- The inner word loop of `build_ents` over one sentence's words. -/
def entScanWords (docText : Value) (st : EntState) (ws : List Word) : Option EntState :=
  ofoldlM (buildEntsStep docText) st ws

/-- One sentence of the `build_ents` scan: scan the words, then flush
unconditionally (an entity never crosses a sentence boundary). -/
def entScanSentence (docText : Value) (st : EntState) (s : Sentence) : Option EntState := do
  let st2 ← entScanWords docText st s.words
  let st3 ← entFlush docText st2
  pure { st3 with entWords := [] }

/-- `Document.build_ents`: reset the entity list and scan all sentences; the
returned count is the length of the resulting `ents`. -/
def Document.buildEnts (d : Document) : Option Document := do
  let stF ← ofoldlM (entScanSentence d.text) {} d.sentences
  pure { d with ents := stF.ents }

/-! ### Generic lemmas about the option-valued combinators -/

theorem ofoldlM_append {α β : Type} (f : β → α → Option β) (b : β) (l1 l2 : List α) :
    ofoldlM f b (l1 ++ l2) = (ofoldlM f b l1).bind fun b2 => ofoldlM f b2 l2 := by
  induction l1 generalizing b with
  | nil => simp [ofoldlM]
  | cons a l ih =>
      simp only [List.cons_append, ofoldlM]
      cases f b a with
      | none => simp
      | some b2 => simp [ih]

theorem ofoldlM_of_mem_none {α β : Type} (f : β → α → Option β) (a : α)
    (hf : ∀ b, f b a = none) :
    ∀ (l : List α) (b : β), a ∈ l → ofoldlM f b l = none := by
  intro l
  induction l with
  | nil => intro b h; cases h
  | cons x xs ih =>
      intro b h
      rcases List.mem_cons.mp h with rfl | hmem
      · simp [ofoldlM, hf]
      · cases hx : f b x with
        | none => simp [ofoldlM, hx]
        | some b2 => simp [ofoldlM, hx, ih b2 hmem]

theorem pyIndex_neg_one_nonempty {α : Type} (l : List α) (a : α)
    (h : pyIndex l (-1) = some a) : l ≠ [] := by
  intro hl
  subst hl
  simp [pyIndex] at h

theorem pySplit_length (sep : Char) (s : String) :
    (pySplit sep s).length = s.data.count sep + 1 := by
  have aux : ∀ (l acc : List Char), (splitCharAux sep l acc).length = l.count sep + 1 := by
    intro l
    induction l with
    | nil => intro acc; simp [splitCharAux]
    | cons c cs ih =>
        intro acc
        by_cases hc : c = sep
        · subst hc
          simp [splitCharAux, ih, List.count_cons]
        · simp [splitCharAux, hc, ih, List.count_cons, Ne.symm hc]
  simp [pySplit, aux]

/-! ### C7: dependency triples of the 3-word example sentence -/

/-- Word entry with explicit head and relation. -/
def entryHD (idv tv : String) (h : Int) (dr : String) : Entry :=
  { id := some (.vstr idv), text := some (.vstr tv),
    head := some (.vint h), deprel := some (.vstr dr) }

/-- The 3-word example: heads `[2, 0, 2]`, relations `[nsubj, root, obj]`. -/
def c7entries : List Entry :=
  [entryHD "1" "w1" 2 "nsubj", entryHD "2" "w2" 0 "root", entryHD "3" "w3" 2 "obj"]

/-- The constructed example sentence. -/
def c7sent : Sentence := (mkSentence c7entries).getD {}

/-- The first word of the example as constructed. -/
def c7word1 : Word :=
  { id := .vstr "1", text := .vstr "w1", head := .vint 2, deprel := .vstr "nsubj" }

/-- The second word of the example as constructed. -/
def c7word2 : Word :=
  { id := .vstr "2", text := .vstr "w2", head := .vint 0, deprel := .vstr "root" }

/-- The third word of the example as constructed. -/
def c7word3 : Word :=
  { id := .vstr "3", text := .vstr "w3", head := .vint 2, deprel := .vstr "obj" }

/-- The synthetic ROOT word materialized for a zero head. -/
def synRoot : Word := { id := .vstr "0", text := .vstr "ROOT" }

/-- C7: for a 3-word sentence with heads `[2, 0, 2]` and relations
`[nsubj, root, obj]`, `build_dependencies` (run automatically at
construction) yields exactly the ordered triples `(word2, nsubj, word1)`,
`(ROOT, root, word2)`, `(word2, obj, word3)`, where ROOT is a synthetic word
with id `0` and text `ROOT`. -/
theorem c7_dependency_triples :
    mkSentence c7entries = some c7sent ∧
    c7sent.dependencies =
      [⟨c7word2, .vstr "nsubj", c7word1⟩,
       ⟨synRoot, .vstr "root", c7word2⟩,
       ⟨c7word2, .vstr "obj", c7word3⟩] := by
  constructor
  · rfl
  · rfl

/-! ### C9: a successfully constructed sentence always has a word -/

/-- C9: constructing a `Sentence` from an entry list that yields zero words
raises (the completeness check indexes the last word unconditionally), so
the empty entry list fails both at sentence and at document level, and every
successfully processed sentence has a nonempty word list. -/
theorem c9_sentence_words_nonempty :
    mkSentence ([] : List Entry) = none ∧
    mkDocument [([] : List Entry)] .vnone = none ∧
    (∀ (s0 : Sentence) (entries : List Entry) (s : Sentence),
      Sentence.processTokensOn s0 entries = some s → s.words ≠ []) := by
  refine ⟨rfl, rfl, ?_⟩
  intro s0 entries s h
  unfold Sentence.processTokensOn at h
  cases hfin : processTokensAux ⟨-1, -1, [], []⟩ 0 entries with
  | none => rw [hfin] at h; simp at h
  | some fin =>
      rw [hfin] at h
      simp only [Option.bind_eq_bind, Option.some_bind] at h
      cases hlast : pyIndex fin.words (-1) with
      | none => rw [hlast] at h; simp at h
      | some lastW =>
          have hne := pyIndex_neg_one_nonempty fin.words lastW hlast
          rw [hlast] at h
          simp only [Option.some_bind] at h
          cases hid : pyInt lastW.id with
          | none => rw [hid] at h; simp at h
          | some lastId =>
              rw [hid] at h
              simp only [Option.some_bind] at h
              by_cases hc : ((fin.words.all fun w => w.head ≠ .vnone && w.deprel ≠ .vnone) &&
                  ((fin.words.length : Int) = lastId : Bool)) = true
              · rw [if_pos hc] at h
                cases hdeps : buildDependencies fin.words with
                | none => rw [hdeps] at h; simp at h
                | some deps =>
                    rw [hdeps] at h
                    simp only [Option.some_bind, Option.pure_def, Option.some.injEq] at h
                    subst h
                    simpa using hne
              · rw [if_neg hc] at h
                simp only [Option.pure_def, Option.some.injEq] at h
                subst h
                simpa using hne

/-- Witness for C9 at a concrete input: the example sentence of C7. -/
theorem c9_sentence_words_nonempty_witness : c7sent.words ≠ [] :=
  c9_sentence_words_nonempty.2.2 {} c7entries c7sent (by rfl)

/-! ### C10: misc items with two or more `=` make construction raise -/

theorem wordMiscStep_none_of_two_eq (item : String) (h : 2 ≤ item.data.count '=') :
    ∀ w : Word, wordMiscStep w item = none := by
  intro w
  have hlen : 3 ≤ (pySplit '=' item).length := by
    rw [pySplit_length]
    omega
  unfold wordMiscStep
  rcases hsp : pySplit '=' item with _ | ⟨a, _ | ⟨b, _ | ⟨c, l⟩⟩⟩ <;>
    simp [hsp] at hlen ⊢

theorem tokenMiscStep_none_of_two_eq (item : String) (h : 2 ≤ item.data.count '=') :
    ∀ t : Token, tokenMiscStep t item = none := by
  intro t
  have hlen : 3 ≤ (pySplit '=' item).length := by
    rw [pySplit_length]
    omega
  unfold tokenMiscStep
  rcases hsp : pySplit '=' item with _ | ⟨a, _ | ⟨b, _ | ⟨c, l⟩⟩⟩ <;>
    simp [hsp] at hlen ⊢

theorem miscValue_ne_sentinel (m : String) (item : String)
    (hmem : item ∈ pySplit '|' m) (h2 : 2 ≤ item.data.count '=') : m ≠ "_" := by
  intro hm
  subst hm
  have : pySplit '|' "_" = ["_"] := by rfl
  rw [this] at hmem
  simp at hmem
  subst hmem
  have : ("_" : String).data.count '=' = 0 := by rfl
  omega

/-- C10: in `Word.init_from_misc` and `Token.init_from_misc`, a
pipe-separated misc item containing two or more `=` characters makes the
two-element unpacking raise during construction, so no `Word` or `Token`
with such a misc value can be constructed; an item containing no `=` at all
is silently skipped. -/
theorem c10_misc_double_equals_raises :
    (∀ (e : Entry) (m : String), e.misc = some (.vstr m) →
      (∃ item ∈ pySplit '|' m, 2 ≤ item.data.count '=') →
      wordFromEntry e = none) ∧
    (∀ (e : Entry) (ws : List Word) (m : String), e.misc = some (.vstr m) →
      (∃ item ∈ pySplit '|' m, 2 ≤ item.data.count '=') →
      tokenFromEntry e ws = none) ∧
    (∀ (w : Word) (item : String), item.data.count '=' = 0 →
      wordMiscStep w item = some w) ∧
    (∀ (t : Token) (item : String), item.data.count '=' = 0 →
      tokenMiscStep t item = some t) := by
  refine ⟨?_, ?_, ?_, ?_⟩
  · intro e m hm hex
    obtain ⟨item, hmem, h2⟩ := hex
    have hms : m ≠ "_" := miscValue_ne_sentinel m item hmem h2
    unfold wordFromEntry
    by_cases htr : (truthy (e.id.getD .vnone) && truthy (e.text.getD .vnone)) = true
    · rw [if_pos htr]
      cases hh : headValOf (e.head.getD .vnone) with
      | none => simp
      | some hd =>
          have hmisc : optVal (e.misc.getD .vnone) = .vstr m := by
            rw [hm]
            simp [optVal, isNull, hms]
          simp only [Option.bind_eq_bind, Option.some_bind, hh]
          rw [hmisc]
          have : (Value.vstr m ≠ Value.vnone) = True := by simp
          simp only [this, if_true]
          unfold Word.initFromMisc
          simp only [hmisc]
          exact ofoldlM_of_mem_none wordMiscStep item
            (fun b => wordMiscStep_none_of_two_eq item h2 b) _ _ hmem
    · rw [if_neg htr]
  · intro e ws m hm hex
    obtain ⟨item, hmem, h2⟩ := hex
    have hms : m ≠ "_" := miscValue_ne_sentinel m item hmem h2
    unfold tokenFromEntry
    by_cases htr : (truthy (e.id.getD .vnone) && truthy (e.text.getD .vnone)) = true
    · rw [if_pos htr]
      have hmisc : optVal (e.misc.getD .vnone) = .vstr m := by
        rw [hm]
        simp [optVal, isNull, hms]
      simp only [hmisc]
      have hne : (Value.vstr m ≠ Value.vnone) = True := by simp
      simp only [hne, if_true]
      unfold Token.initFromMisc
      simp only [hmisc]
      rw [ofoldlM_of_mem_none tokenMiscStep item
        (fun b => tokenMiscStep_none_of_two_eq item h2 b) _ _ hmem]
      simp
    · rw [if_neg htr]
  · intro w item h0
    have hlen : (pySplit '=' item).length = 1 := by
      rw [pySplit_length, h0]
    unfold wordMiscStep
    rcases hsp : pySplit '=' item with _ | ⟨a, _ | ⟨b, l⟩⟩ <;>
      simp [hsp] at hlen ⊢
  · intro t item h0
    have hlen : (pySplit '=' item).length = 1 := by
      rw [pySplit_length, h0]
    unfold tokenMiscStep
    rcases hsp : pySplit '=' item with _ | ⟨a, _ | ⟨b, l⟩⟩ <;>
      simp [hsp] at hlen ⊢

/-- Concrete entry whose misc item `key=a=b` contains two `=` characters. -/
def c10entry : Entry :=
  { id := some (.vstr "1"), text := some (.vstr "a"), misc := some (.vstr "key=a=b") }

/-- Witness for C10 at a concrete input: misc `key=a=b`. -/
theorem c10_misc_double_equals_raises_witness :
    wordFromEntry c10entry = none ∧
    tokenFromEntry c10entry [] = none ∧
    wordMiscStep ({} : Word) "SpaceAfter" = some ({} : Word) :=
  ⟨c10_misc_double_equals_raises.1 c10entry "key=a=b" rfl ⟨"key=a=b", by decide, by decide⟩,
   c10_misc_double_equals_raises.2.1 c10entry [] "key=a=b" rfl ⟨"key=a=b", by decide, by decide⟩,
   c10_misc_double_equals_raises.2.2.1 ({} : Word) "SpaceAfter" (by decide)⟩

/-! ### C6: skipped dependency rebuild leaves the previous graph in place -/

/-- Word entry with only id and text. -/
def entryIT (idv tv : String) : Entry :=
  { id := some (.vstr idv), text := some (.vstr tv) }

/-- Entries with complete dependency info. -/
def c6entriesFull : List Entry := [entryHD "1" "w1" 2 "nsubj", entryHD "2" "w2" 0 "root"]

/-- The same sentence serialized without heads or relations. -/
def c6entriesBare : List Entry := [entryIT "1" "w1", entryIT "2" "w2"]

/-- Sentence constructed with a complete dependency graph. -/
def c6sent : Sentence := (mkSentence c6entriesFull).getD {}

/-- The same sentence re-processed from entries lacking `head`/`deprel`. -/
def c6resent : Sentence := (c6sent.processTokensOn c6entriesBare).getD {}

/-- C6 counterexample: re-processing a sentence via `_process_tokens` with a
word lacking `head` does not leave the dependency list empty — the rebuild
is skipped and the stale previous graph survives, contradicting the claim
that the list is empty after any re-processing. -/
theorem c6_reprocess_keeps_stale_deps :
    mkSentence c6entriesFull = some c6sent ∧
    c6sent.dependencies.length = 2 ∧
    Sentence.processTokensOn c6sent c6entriesBare = some c6resent ∧
    (c6resent.words.map Word.head) = [.vnone, .vnone] ∧
    c6resent.dependencies = c6sent.dependencies ∧
    c6resent.dependencies ≠ [] := by
  refine ⟨rfl, rfl, rfl, rfl, rfl, by decide⟩

/-- C6 amended: when some word of the processed result lacks `head` or
`deprel`, the dependency rebuild is skipped: a freshly constructed sentence
has an empty dependency list, and re-processing an existing sentence leaves
its previous dependency list unchanged (never a partial graph, but not
necessarily empty). -/
theorem c6_incomplete_deps_preserved :
    (∀ (s0 : Sentence) (entries : List Entry) (s : Sentence),
      Sentence.processTokensOn s0 entries = some s →
      (∃ w ∈ s.words, w.head = .vnone ∨ w.deprel = .vnone) →
      s.dependencies = s0.dependencies) ∧
    (∀ (entries : List Entry) (s : Sentence),
      mkSentence entries = some s →
      (∃ w ∈ s.words, w.head = .vnone ∨ w.deprel = .vnone) →
      s.dependencies = []) := by
  have main : ∀ (s0 : Sentence) (entries : List Entry) (s : Sentence),
      Sentence.processTokensOn s0 entries = some s →
      (∃ w ∈ s.words, w.head = .vnone ∨ w.deprel = .vnone) →
      s.dependencies = s0.dependencies := by
    intro s0 entries s h hex
    unfold Sentence.processTokensOn at h
    cases hfin : processTokensAux ⟨-1, -1, [], []⟩ 0 entries with
    | none => rw [hfin] at h; simp at h
    | some fin =>
        rw [hfin] at h
        simp only [Option.bind_eq_bind, Option.some_bind] at h
        cases hlast : pyIndex fin.words (-1) with
        | none => rw [hlast] at h; simp at h
        | some lastW =>
            rw [hlast] at h
            simp only [Option.some_bind] at h
            cases hid : pyInt lastW.id with
            | none => rw [hid] at h; simp at h
            | some lastId =>
                rw [hid] at h
                simp only [Option.some_bind] at h
                by_cases hc : ((fin.words.all fun w => w.head ≠ .vnone && w.deprel ≠ .vnone) &&
                    ((fin.words.length : Int) = lastId : Bool)) = true
                · exfalso
                  rw [if_pos hc] at h
                  have hall := (Bool.and_eq_true_iff.mp hc).1
                  cases hdeps : buildDependencies fin.words with
                  | none => rw [hdeps] at h; simp at h
                  | some deps =>
                      rw [hdeps] at h
                      simp only [Option.some_bind, Option.pure_def, Option.some.injEq] at h
                      obtain ⟨w, hwmem, hw⟩ := hex
                      have hwords : s.words = fin.words := by rw [← h]
                      rw [hwords] at hwmem
                      have := List.all_eq_true.mp hall w hwmem
                      rcases hw with hw | hw <;> simp [hw] at this
                · rw [if_neg hc] at h
                  simp only [Option.pure_def, Option.some.injEq] at h
                  subst h
                  rfl
  refine ⟨main, ?_⟩
  intro entries s h hex
  exact main {} entries s h hex

/-- Witness for C6 amended at a concrete input. -/
theorem c6_incomplete_deps_preserved_witness :
    c6resent.dependencies = c6sent.dependencies :=
  c6_incomplete_deps_preserved.1 c6sent c6entriesBare c6resent (by rfl)
    ⟨(c6resent.words.get ⟨0, by decide⟩), by decide, Or.inl (by decide)⟩

/-! ### C4: an unset NER tag skips the word instead of flushing -/

/-- Word entry with an NER tag. -/
def entryNer (idv tv tag : String) : Entry :=
  { id := some (.vstr idv), text := some (.vstr tv), ner := some (.vstr tag) }

/-- Document whose middle word has no `ner` value. -/
def c4entriesNone : List (List Entry) :=
  [[entryNer "1" "a" "B-PER", entryIT "2" "b", entryNer "3" "c" "I-PER"]]

/-- The same document with the middle word tagged `O`. -/
def c4entriesO : List (List Entry) :=
  [[entryNer "1" "a" "B-PER", entryNer "2" "b" "O", entryNer "3" "c" "I-PER"]]

/-- The constructed documents and their `build_ents` results. -/
def c4docNone : Document := (mkDocument c4entriesNone (.vstr "abc")).getD {}

/-- See `c4docNone`. -/
def c4docO : Document := (mkDocument c4entriesO (.vstr "abc")).getD {}

/-- See `c4docNone`. -/
def c4resNone : Document := c4docNone.buildEnts.getD {}

/-- See `c4docNone`. -/
def c4resO : Document := c4docO.buildEnts.getD {}

/-- C4 counterexample: a word with unset `ner` does not flush the
in-progress entity the way an `O` tag does — it is skipped, so the entity
stays open and absorbs the following `I-` word: the unset variant yields a
single entity spanning words 1 and 3, while the `O` variant yields two. -/
theorem c4_unset_ner_not_flush :
    mkDocument c4entriesNone (.vstr "abc") = some c4docNone ∧
    c4docNone.buildEnts = some c4resNone ∧
    (c4resNone.ents.map fun sp => sp.words.map Word.text) = [[.vstr "a", .vstr "c"]] ∧
    mkDocument c4entriesO (.vstr "abc") = some c4docO ∧
    c4docO.buildEnts = some c4resO ∧
    c4resO.ents.length = 2 := by
  refine ⟨rfl, by decide, by decide, rfl, by decide, by decide⟩

/-- C4 amended: scanning a word whose `ner` is unset changes nothing: the
word is skipped, the in-progress entity is neither flushed nor extended, so
deleting such a word from the scanned word sequence leaves the whole scan
result unchanged. -/
theorem c4_unset_ner_skips_word (docText : Value) (st : EntState)
    (ws1 ws2 : List Word) (w : Word) (h : w.ner = .vnone) :
    entScanWords docText st (ws1 ++ w :: ws2) = entScanWords docText st (ws1 ++ ws2) := by
  induction ws1 generalizing st with
  | nil =>
      simp only [List.nil_append]
      unfold entScanWords
      simp [ofoldlM, buildEntsStep, h]
  | cons a as ih =>
      unfold entScanWords
      simp only [List.cons_append, ofoldlM]
      cases buildEntsStep docText st a with
      | none => simp
      | some st2 => simpa using ih st2

/-- Witness for C4 amended at a concrete input: dropping the unset-tag word
of `c4docNone`'s sentence does not change the scan. -/
theorem c4_unset_ner_skips_word_witness :
    entScanWords (.vstr "abc") ({} : EntState)
      ([(c4docNone.sentences.getD 0 {}).words.getD 0 {}] ++
        ((c4docNone.sentences.getD 0 {}).words.getD 1 {}) ::
        [(c4docNone.sentences.getD 0 {}).words.getD 2 {}]) =
    entScanWords (.vstr "abc") ({} : EntState)
      ([(c4docNone.sentences.getD 0 {}).words.getD 0 {}] ++
        [(c4docNone.sentences.getD 0 {}).words.getD 2 {}]) :=
  c4_unset_ner_skips_word (.vstr "abc") ({} : EntState) _ _ _ (by decide)

/-! ### C1: `set` followed by `get` -/

/-- A value is a fixed point of the property setter of field `f`: `head`
stores `int(value)` (so only `None` and `int` values survive unchanged), the
optional fields map the sentinel `'_'` to `None`, and `id`/`text` store
anything as-is. -/
def fixedVal (f : String) (v : Value) : Bool :=
  if f = "head" then
    match v with
    | .vnone => true
    | .vint _ => true
    | .vstr _ => false
  else if f = "id" || f = "text" then true
  else v ≠ .vstr "_"

/-- A contents row matches the requested fields and every written value is a
fixed point of its setter. -/
def rowFixed (fields : List String) : Row → Bool
  | .one v =>
      match fields with
      | [f] => fixedVal f v
      | _ => false
  | .many vs =>
      match fields with
      | f1 :: f2 :: fs =>
          vs.length = (f1 :: f2 :: fs).length &&
            ((f1 :: f2 :: fs).zip vs).all fun p => fixedVal p.1 p.2
      | _ => false

theorem optVal_eq_self (v : Value) (hv : v ≠ .vstr "_") : optVal v = v := by
  cases v with
  | vnone => rfl
  | vint n => rfl
  | vstr s =>
      have : s ≠ "_" := by intro h; exact hv (by rw [h])
      simp [optVal, isNull, this]

theorem lemmaValOf_eq_self (t v : Value) (hv : v ≠ .vstr "_") : lemmaValOf t v = v := by
  cases v with
  | vnone => simp [lemmaValOf, isNull]
  | vint n => simp [lemmaValOf, isNull]
  | vstr s =>
      have : s ≠ "_" := by intro h; exact hv (by rw [h])
      simp [lemmaValOf, isNull, this]

theorem headValOf_fixed (v : Value) (hv : fixedVal "head" v = true) :
    headValOf v = some v := by
  cases v with
  | vnone => rfl
  | vint n => rfl
  | vstr s => simp [fixedVal] at hv

/-- Setting a fixed-point value succeeds and reads back unchanged. -/
theorem setAttr_fixed_read (w : Word) (f : String) (v : Value)
    (hf : f ∈ wordFieldNames) (hv : fixedVal f v = true) :
    ∃ w2, w.setAttr f v = some w2 ∧ w2.getAttr f = some v := by
  have hne : f ≠ "head" → f ≠ "id" → f ≠ "text" → v ≠ .vstr "_" := by
    intro h1 h2 h3
    unfold fixedVal at hv
    rw [if_neg h1] at hv
    have : (f = "id" || f = "text") = false := by simp [h2, h3]
    rw [this] at hv
    simpa using hv
  simp only [wordFieldNames, List.mem_cons, List.mem_singleton] at hf
  rcases hf with rfl | rfl | rfl | rfl | rfl | rfl | rfl | rfl | rfl | rfl | rfl | hf
  · exact ⟨_, rfl, rfl⟩
  · exact ⟨_, rfl, rfl⟩
  · refine ⟨_, rfl, ?_⟩
    simp [Word.getAttr, Word.setAttr, lemmaValOf_eq_self _ v (by simp at hne; tauto)]
  · refine ⟨_, rfl, ?_⟩
    simp [Word.getAttr, Word.setAttr, optVal_eq_self v (by simp at hne; tauto)]
  · refine ⟨_, rfl, ?_⟩
    simp [Word.getAttr, Word.setAttr, optVal_eq_self v (by simp at hne; tauto)]
  · refine ⟨_, rfl, ?_⟩
    simp [Word.getAttr, Word.setAttr, optVal_eq_self v (by simp at hne; tauto)]
  · refine ⟨{ w with head := v }, ?_, ?_⟩
    · simp [Word.setAttr, headValOf_fixed v hv]
    · rfl
  · refine ⟨_, rfl, ?_⟩
    simp [Word.getAttr, Word.setAttr, optVal_eq_self v (by simp at hne; tauto)]
  · refine ⟨_, rfl, ?_⟩
    simp [Word.getAttr, Word.setAttr, optVal_eq_self v (by simp at hne; tauto)]
  · refine ⟨_, rfl, ?_⟩
    simp [Word.getAttr, Word.setAttr, optVal_eq_self v (by simp at hne; tauto)]
  · refine ⟨_, rfl, ?_⟩
    simp [Word.getAttr, Word.setAttr, optVal_eq_self v (by simp at hne; tauto)]
  · cases hf

/-- Writing one recognized field leaves every other recognized field's read
unchanged (the field names being distinct members of the closed
enumeration, which contains no aliases). -/
theorem getAttr_setAttr_ne (w w2 : Word) (f g : String) (v : Value)
    (hf : f ∈ wordFieldNames) (hg : g ∈ wordFieldNames) (hne : f ≠ g)
    (h : w.setAttr g v = some w2) : w2.getAttr f = w.getAttr f := by
  simp only [wordFieldNames, List.mem_cons, List.mem_singleton] at hf hg
  rcases hg with rfl | rfl | rfl | rfl | rfl | rfl | rfl | rfl | rfl | rfl | rfl | hg
  all_goals try cases hg
  all_goals
    first
    | (simp [Word.setAttr] at h
       subst h
       rcases hf with rfl | rfl | rfl | rfl | rfl | rfl | rfl | rfl | rfl | rfl | rfl | hf <;>
         first | rfl | (exact absurd rfl hne) | cases hf)
    | (cases hhv : headValOf v with
       | none => simp [Word.setAttr, hhv] at h
       | some hv =>
           simp [Word.setAttr, hhv] at h
           subst h
           rcases hf with rfl | rfl | rfl | rfl | rfl | rfl | rfl | rfl | rfl | rfl | rfl | hf <;>
             first | rfl | (exact absurd rfl hne) | cases hf)

theorem omapM_append {α β : Type} (f : α → Option β) (l1 l2 : List α) :
    omapM f (l1 ++ l2) =
      (omapM f l1).bind fun r1 => (omapM f l2).bind fun r2 => some (r1 ++ r2) := by
  induction l1 with
  | nil => simp [omapM]
  | cons a l ih =>
      cases hfa : f a <;> cases h1 : omapM f l <;> cases h2 : omapM f l2 <;>
        simp [omapM, hfa, h1, h2, ih]

/-- Folding writes over the remaining (distinct) fields does not disturb an
already-written field. -/
theorem fold_setAttr_preserves (fs : List String) (vt : List Value) (f : String)
    (hf : f ∈ wordFieldNames) (hsub : ∀ g ∈ fs, g ∈ wordFieldNames) (hnotin : f ∉ fs) :
    ∀ (w1 w2 : Word),
      ofoldlM (fun w fv => w.setAttr fv.1 fv.2) w1 (fs.zip vt) = some w2 →
      w2.getAttr f = w1.getAttr f := by
  induction fs generalizing vt with
  | nil =>
      intro w1 w2 h
      have h2 : some w1 = some w2 := h
      injection h2 with h3
      subst h3
      rfl
  | cons g gs ih =>
      intro w1 w2 h
      cases vt with
      | nil =>
          have h2 : some w1 = some w2 := h
          injection h2 with h3
          subst h3
          rfl
      | cons v vt2 =>
          simp only [List.zip_cons_cons, ofoldlM] at h
          cases hset : w1.setAttr g v with
          | none => rw [hset] at h; simp at h
          | some w1b =>
              rw [hset] at h
              simp only [Option.bind_eq_bind, Option.some_bind] at h
              have hgs : ∀ x ∈ gs, x ∈ wordFieldNames := fun x hx => hsub x (List.mem_cons_of_mem _ hx)
              have hfg : f ≠ g := fun hfg => hnotin (hfg ▸ List.mem_cons_self g gs)
              have hnotin2 : f ∉ gs := fun hx => hnotin (List.mem_cons_of_mem _ hx)
              rw [ih vt2 hgs hnotin2 w1b w2 h]
              exact getAttr_setAttr_ne w1 w1b f g v hf (hsub g (List.mem_cons_self g gs)) hfg hset

/-- Writing distinct fixed-point values in order succeeds and all of them
read back unchanged. -/
theorem fold_setAttr_read (fs : List String) (vt : List Value)
    (hnd : fs.Nodup) (hsub : ∀ g ∈ fs, g ∈ wordFieldNames)
    (hlen : vt.length = fs.length)
    (hfix : ∀ p ∈ fs.zip vt, fixedVal p.1 p.2 = true) :
    ∀ w : Word, ∃ w2,
      ofoldlM (fun w fv => w.setAttr fv.1 fv.2) w (fs.zip vt) = some w2 ∧
      omapM w2.getAttr fs = some vt := by
  induction fs generalizing vt with
  | nil =>
      intro w
      cases vt with
      | nil => exact ⟨w, rfl, rfl⟩
      | cons v vt2 => simp at hlen
  | cons g gs ih =>
      intro w
      cases vt with
      | nil => simp at hlen
      | cons v vt2 =>
          have hgmem : g ∈ wordFieldNames := hsub g (List.mem_cons_self g gs)
          have hfixg : fixedVal g v = true := hfix (g, v) (by simp)
          obtain ⟨w1, hw1, hread1⟩ := setAttr_fixed_read w g v hgmem hfixg
          have hgs : ∀ x ∈ gs, x ∈ wordFieldNames := fun x hx => hsub x (List.mem_cons_of_mem _ hx)
          have hnd2 : gs.Nodup := (List.nodup_cons.mp hnd).2
          have hnotin : g ∉ gs := (List.nodup_cons.mp hnd).1
          have hlen2 : vt2.length = gs.length := by simpa using hlen
          have hfix2 : ∀ p ∈ gs.zip vt2, fixedVal p.1 p.2 = true := by
            intro p hp
            exact hfix p (by simp [hp])
          obtain ⟨w2, hw2, hread2⟩ := ih vt2 hnd2 hgs hlen2 hfix2 w1
          refine ⟨w2, ?_, ?_⟩
          · simp only [List.zip_cons_cons, ofoldlM, hw1, Option.some_bind]
            exact hw2
          · have hpres := fold_setAttr_preserves gs vt2 g hgmem hgs hnotin w1 w2 hw2
            simp only [omapM, hpres, hread1, Option.some_bind, hread2]
            rfl

/-- Writing one fixed row into a word reads back as the same row. -/
theorem writeRow_project (fields : List String) (w : Word) (r : Row)
    (hnd : fields.Nodup) (hsub : ∀ f ∈ fields, f ∈ wordFieldNames)
    (hr : rowFixed fields r = true) :
    ∃ w2, Word.writeRow fields w r = some w2 ∧ Word.project fields w2 = some r := by
  cases r with
  | one v =>
      match fields, hr with
      | [f], hr =>
          have hf : f ∈ wordFieldNames := hsub f (by simp)
          have hfix : fixedVal f v = true := by simpa [rowFixed] using hr
          obtain ⟨w2, hset, hget⟩ := setAttr_fixed_read w f v hf hfix
          exact ⟨w2, by simpa [Word.writeRow] using hset, by simp [Word.project, hget]⟩
      | [], hr => simp [rowFixed] at hr
      | f1 :: f2 :: fs, hr => simp [rowFixed] at hr
  | many vs =>
      match fields, hr with
      | [], hr => simp [rowFixed] at hr
      | [f], hr => simp [rowFixed] at hr
      | f1 :: f2 :: fs, hr =>
          simp only [rowFixed, Bool.and_eq_true, decide_eq_true_eq, List.all_eq_true] at hr
          have hlen : vs.length = (f1 :: f2 :: fs).length := by
            simpa using hr.1
          have hfix : ∀ p ∈ (f1 :: f2 :: fs).zip vs, fixedVal p.1 p.2 = true := by
            intro p hp
            exact hr.2 p hp
          obtain ⟨w2, hfold, hread⟩ := fold_setAttr_read (f1 :: f2 :: fs) vs hnd hsub hlen hfix w
          refine ⟨w2, ?_, ?_⟩
          · simpa [Word.writeRow, rowIter] using hfold
          · simp [Word.project, hread]

/-- Writing rows into one sentence's words consumes exactly one row per word
and the written words project back to the consumed rows. -/
theorem setWordsAux_spec (fields : List String)
    (hnd : fields.Nodup) (hsub : ∀ f ∈ fields, f ∈ wordFieldNames) :
    ∀ (ws : List Word) (cs : List Row),
      ws.length ≤ cs.length →
      (∀ r ∈ cs.take ws.length, rowFixed fields r = true) →
      ∃ ws2, setWordsAux fields ws cs = some (ws2, cs.drop ws.length) ∧
        omapM (Word.project fields) ws2 = some (cs.take ws.length) := by
  intro ws
  induction ws with
  | nil => intro cs _ _; exact ⟨[], rfl, rfl⟩
  | cons w ws ih =>
      intro cs hlen hfix
      cases cs with
      | nil => simp at hlen
      | cons c cs2 =>
          have hc : rowFixed fields c = true := hfix c (by simp)
          obtain ⟨w2, hw2, hproj⟩ := writeRow_project fields w c hnd hsub hc
          obtain ⟨ws2, hws2, hprojs⟩ := ih cs2 (by simpa using hlen)
            (by intro r hr; exact hfix r (by simp [hr]))
          refine ⟨w2 :: ws2, ?_, ?_⟩
          · simp only [setWordsAux, hw2, hws2, Option.bind_eq_bind, Option.some_bind]
            rfl
          · simp only [omapM, hproj, hprojs, Option.bind_eq_bind, Option.some_bind]
            rfl

/-- Threading rows through a sentence list consumes one row per word in
traversal order, the updated words project back to the consumed rows, and
per-sentence word counts are unchanged. -/
theorem setSentencesAux_spec (fields : List String)
    (hnd : fields.Nodup) (hsub : ∀ f ∈ fields, f ∈ wordFieldNames) :
    ∀ (ss : List Sentence) (cs : List Row),
      (ss.map fun s => s.words.length).sum ≤ cs.length →
      (∀ r ∈ cs.take (ss.map fun s => s.words.length).sum, rowFixed fields r = true) →
      ∃ ss2,
        setSentencesAux fields ss cs =
          some (ss2, cs.drop (ss.map fun s => s.words.length).sum) ∧
        omapM (Word.project fields) (ss2.map Sentence.words).flatten =
          some (cs.take (ss.map fun s => s.words.length).sum) := by
  intro ss
  induction ss with
  | nil => intro cs _ _; exact ⟨[], rfl, rfl⟩
  | cons s ss ih =>
      intro cs hlen hfix
      have hsums : (List.map (fun s => s.words.length) (s :: ss)).sum
          = s.words.length + (List.map (fun s => s.words.length) ss).sum := by
        simp
      have hlen1 : s.words.length ≤ cs.length := by omega
      have htake : ∀ r ∈ cs.take s.words.length, rowFixed fields r = true := by
        intro r hr
        refine hfix r ?_
        rw [hsums, List.take_add]
        exact List.mem_append_left _ hr
      obtain ⟨ws2, hws2, hproj1⟩ := setWordsAux_spec fields hnd hsub s.words cs hlen1 htake
      have hlen2 : (List.map (fun s => s.words.length) ss).sum ≤
          (cs.drop s.words.length).length := by
        rw [List.length_drop]
        omega
      have hfix2 : ∀ r ∈ (cs.drop s.words.length).take
          (List.map (fun s => s.words.length) ss).sum, rowFixed fields r = true := by
        intro r hr
        refine hfix r ?_
        rw [hsums, List.take_add]
        exact List.mem_append_right _ hr
      obtain ⟨ss2, hss2, hproj2⟩ := ih (cs.drop s.words.length) hlen2 hfix2
      refine ⟨{ s with words := ws2 } :: ss2, ?_, ?_⟩
      · simp only [setSentencesAux, hws2, hss2, Option.bind_eq_bind, Option.some_bind]
        have hdd : (cs.drop s.words.length).drop (List.map (fun s => s.words.length) ss).sum
            = cs.drop (List.map (fun s => s.words.length) (s :: ss)).sum := by
          rw [List.drop_drop, hsums]
        rw [hdd]
        rfl
      · simp only [List.map_cons, List.flatten_cons]
        rw [omapM_append, hproj1, hproj2]
        simp only [Option.some_bind]
        rw [List.sum_cons, List.take_add]

/-! Counterexample and amended round-trip theorem for C1. -/

/-- One-word document used in the C1 counterexample and witnesses. -/
def c1entries : List (List Entry) := [[entryIT "1" "a"]]

/-- See `c1entries`. -/
def c1doc : Document := (mkDocument c1entries .vnone).getD {}

/-- `c1doc` after `set(['head'], ['3'])`. -/
def c1docSet : Document := (c1doc.set ["head"] [.one (.vstr "3")]).getD {}

/-- C1 counterexample: `set(['head'], ['3'])` followed by `get(['head'])`
returns `[3]` (the `head` property setter stores `int(value)`), not the
written `['3']`: the round trip is not exact for every contents list. -/
theorem c1_set_get_not_exact :
    mkDocument c1entries .vnone = some c1doc ∧
    c1doc.set ["head"] [.one (.vstr "3")] = some c1docSet ∧
    c1docSet.get ["head"] = some [.one (.vint 3)] ∧
    Row.one (.vint 3) ≠ Row.one (.vstr "3") := by
  exact ⟨rfl, by decide, by decide, by decide⟩

/-- C1 amended: for every document whose `num_words` agrees with its actual
word count, every nonempty duplicate-free list of recognized field names,
and every well-shaped contents list each of whose values is a fixed point of
the corresponding property setter (head values integral, optional values not
the `'_'` sentinel), `set` succeeds and `get` returns exactly the written
contents. -/
theorem c1_set_get_roundtrip_normalized (d : Document) (fields : List String)
    (contents : List Row)
    (hne : fields ≠ []) (hnd : fields.Nodup)
    (hsub : ∀ f ∈ fields, f ∈ wordFieldNames)
    (hnum : d.numWords = contents.length)
    (htot : totalWords d = contents.length)
    (hfix : ∀ r ∈ contents, rowFixed fields r = true) :
    ∃ d2, d.set fields contents = some d2 ∧ d2.get fields = some contents := by
  have hsum : (d.sentences.map fun s => s.words.length).sum = contents.length := htot
  obtain ⟨ss2, hss2, hproj⟩ := setSentencesAux_spec fields hnd hsub d.sentences contents
    (by omega) (by intro r hr; exact hfix r (List.mem_of_mem_take hr))
  refine ⟨{ d with sentences := ss2 }, ?_, ?_⟩
  · unfold Document.set
    rw [if_neg (by simpa using hne), if_neg (by omega)]
    rw [hss2]
    rfl
  · unfold Document.get
    rw [if_neg (by simpa using hne)]
    show omapM (Word.project fields) (ss2.map Sentence.words).flatten = some contents
    rw [hproj, hsum, List.take_length]

/-- Witness for C1 amended at a concrete input. -/
theorem c1_set_get_roundtrip_normalized_witness :
    ∃ d2, c1doc.set ["upos", "ner"] [.many [.vstr "NOUN", .vstr "B-PER"]] = some d2 ∧
      d2.get ["upos", "ner"] = some [.many [.vstr "NOUN", .vstr "B-PER"]] :=
  c1_set_get_roundtrip_normalized c1doc ["upos", "ner"]
    [.many [.vstr "NOUN", .vstr "B-PER"]]
    (by decide) (by decide) (by decide) (by decide) (by decide) (by decide)

/-! ### C5: entities never cross a sentence boundary -/

/-- A span's words all come from a single sentence of the given list. -/
def spanIn (sents : List Sentence) (sp : Span) : Prop :=
  ∃ s ∈ sents, ∀ w ∈ sp.words, w ∈ s.words

theorem spanFromWords_words (dt : Value) (ws : List Word) (ty : Value) (sp : Span)
    (h : spanFromWords dt ws ty = some sp) : sp.words = ws := by
  cases ws with
  | nil => simp [spanFromWords] at h
  | cons w ws2 =>
      unfold spanFromWords at h
      cases hl : pyIndex (w :: ws2) (-1) with
      | none => rw [hl] at h; simp at h
      | some lastW =>
          rw [hl] at h
          simp only [Option.bind_eq_bind, Option.some_bind] at h
          cases hs : pySliceV dt w.parentStart lastW.parentEnd with
          | none => rw [hs] at h; simp at h
          | some tx =>
              rw [hs] at h
              simp only [Option.some_bind, Option.pure_def, Option.some.injEq] at h
              subst h
              rfl

theorem entFlush_spec (dt : Value) (st st2 : EntState)
    (h : entFlush dt st = some st2) :
    st2.entWords = st.entWords ∧
    (st2.ents = st.ents ∨
      ∃ sp, st2.ents = st.ents ++ [sp] ∧ sp.words = st.entWords) := by
  unfold entFlush at h
  by_cases he : st.entWords = []
  · rw [if_pos he] at h
    injection h with h2
    subst h2
    exact ⟨rfl, Or.inl rfl⟩
  · rw [if_neg he] at h
    cases hsp : spanFromWords dt st.entWords st.curType with
    | none => rw [hsp] at h; simp at h
    | some sp =>
        rw [hsp] at h
        simp at h
        subst h
        exact ⟨rfl, Or.inr ⟨sp, rfl, spanFromWords_words dt _ _ sp hsp⟩⟩

/-- Equation lemma: the scan step on an unset tag. -/
theorem buildEntsStep_vnone (dt : Value) (st : EntState) (w : Word)
    (hner : w.ner = .vnone) : buildEntsStep dt st w = some st := by
  rw [buildEntsStep, hner]

/-- Equation lemma: the scan step on an integer tag raises. -/
theorem buildEntsStep_vint (dt : Value) (st : EntState) (w : Word) (n : Int)
    (hner : w.ner = .vint n) : buildEntsStep dt st w = none := by
  rw [buildEntsStep, hner]

/-- Equation lemma: the scan step on a string tag. -/
theorem buildEntsStep_vstr (dt : Value) (st : EntState) (w : Word) (s : String)
    (hner : w.ner = .vstr s) :
    buildEntsStep dt st w =
      (if s = "O" then do
        let st2 ← entFlush dt st
        pure { st2 with entWords := [] }
      else if pyStartsWith s "B-" then do
        let st2 ← entFlush dt st
        pure { st2 with entWords := [w], curType := .vstr (pyDropTwo s) }
      else if pyStartsWith s "I-" then
        pure { st with entWords := st.entWords ++ [w], curType := .vstr (pyDropTwo s) }
      else if pyStartsWith s "E-" then do
        let st3 ← entFlush dt { st with entWords := st.entWords ++ [w], curType := .vstr (pyDropTwo s) }
        pure { st3 with entWords := [] }
      else if pyStartsWith s "S-" then do
        let st2 ← entFlush dt st
        let st4 ← entFlush dt { st2 with entWords := [w], curType := .vstr (pyDropTwo s) }
        pure { st4 with entWords := [] }
      else some st) := by
  rw [buildEntsStep, hner]

/-- One scan step only flushes spans made of the tracked in-progress words
(plus possibly the scanned word) and only tracks old in-progress words plus
the scanned word. -/
theorem buildEntsStep_spec (dt : Value) (st st2 : EntState) (w : Word)
    (h : buildEntsStep dt st w = some st2) :
    (∀ x ∈ st2.entWords, x ∈ st.entWords ∨ x = w) ∧
    (∀ sp ∈ st2.ents, sp ∈ st.ents ∨ ∀ x ∈ sp.words, x ∈ st.entWords ∨ x = w) := by
  cases hner : w.ner with
  | vnone =>
      rw [buildEntsStep_vnone dt st w hner] at h
      injection h with h2
      subst h2
      exact ⟨fun x hx => Or.inl hx, fun sp hsp => Or.inl hsp⟩
  | vint n => rw [buildEntsStep_vint dt st w n hner] at h; cases h
  | vstr s =>
      rw [buildEntsStep_vstr dt st w s hner] at h
      by_cases h1 : s = "O"
      · rw [if_pos h1] at h
        cases hf : entFlush dt st with
        | none => rw [hf] at h; simp at h
        | some stf =>
            rw [hf] at h
            simp only [Option.bind_eq_bind, Option.some_bind, Option.pure_def,
              Option.some.injEq] at h
            subst h
            obtain ⟨hw, he⟩ := entFlush_spec dt st stf hf
            refine ⟨by simp, ?_⟩
            intro sp hsp
            rcases he with he | ⟨sp2, he, hwords⟩
            · simp only [he] at hsp; exact Or.inl hsp
            · simp only [he, List.mem_append, List.mem_singleton] at hsp
              rcases hsp with hsp | rfl
              · exact Or.inl hsp
              · exact Or.inr fun x hx => Or.inl (hwords ▸ hx)
      · rw [if_neg h1] at h
        by_cases h2 : pyStartsWith s "B-" = true
        · rw [if_pos h2] at h
          cases hf : entFlush dt st with
          | none => rw [hf] at h; simp at h
          | some stf =>
              rw [hf] at h
              simp only [Option.bind_eq_bind, Option.some_bind, Option.pure_def,
                Option.some.injEq] at h
              subst h
              obtain ⟨hw, he⟩ := entFlush_spec dt st stf hf
              refine ⟨by simp, ?_⟩
              intro sp hsp
              rcases he with he | ⟨sp2, he, hwords⟩
              · simp only [he] at hsp; exact Or.inl hsp
              · simp only [he, List.mem_append, List.mem_singleton] at hsp
                rcases hsp with hsp | rfl
                · exact Or.inl hsp
                · exact Or.inr fun x hx => Or.inl (hwords ▸ hx)
        · rw [if_neg h2] at h
          by_cases h3 : pyStartsWith s "I-" = true
          · rw [if_pos h3] at h
            simp only [Option.pure_def, Option.some.injEq] at h
            subst h
            refine ⟨?_, fun sp hsp => Or.inl hsp⟩
            intro x hx
            simp only [List.mem_append, List.mem_singleton] at hx
            rcases hx with hx | rfl
            · exact Or.inl hx
            · exact Or.inr rfl
          · rw [if_neg h3] at h
            by_cases h4 : pyStartsWith s "E-" = true
            · rw [if_pos h4] at h
              cases hf : entFlush dt { st with entWords := st.entWords ++ [w], curType := .vstr (pyDropTwo s) } with
              | none => rw [hf] at h; simp at h
              | some stf =>
                  rw [hf] at h
                  simp only [Option.bind_eq_bind, Option.some_bind, Option.pure_def,
                    Option.some.injEq] at h
                  subst h
                  obtain ⟨hw, he⟩ := entFlush_spec dt _ stf hf
                  refine ⟨by simp, ?_⟩
                  intro sp hsp
                  rcases he with he | ⟨sp2, he, hwords⟩
                  · simp only [he] at hsp; exact Or.inl hsp
                  · simp only [he, List.mem_append, List.mem_singleton] at hsp
                    rcases hsp with hsp | rfl
                    · exact Or.inl hsp
                    · refine Or.inr fun x hx => ?_
                      rw [hwords] at hx
                      simp only [List.mem_append, List.mem_singleton] at hx
                      rcases hx with hx | rfl
                      · exact Or.inl hx
                      · exact Or.inr rfl
            · rw [if_neg h4] at h
              by_cases h5 : pyStartsWith s "S-" = true
              · rw [if_pos h5] at h
                cases hf : entFlush dt st with
                | none => rw [hf] at h; simp at h
                | some stf =>
                    rw [hf] at h
                    simp only [Option.bind_eq_bind, Option.some_bind] at h
                    cases hf2 : entFlush dt { stf with entWords := [w], curType := .vstr (pyDropTwo s) } with
                    | none => rw [hf2] at h; simp at h
                    | some stf2 =>
                        rw [hf2] at h
                        simp only [Option.some_bind, Option.pure_def, Option.some.injEq] at h
                        subst h
                        obtain ⟨hw1, he1⟩ := entFlush_spec dt st stf hf
                        obtain ⟨hw2, he2⟩ := entFlush_spec dt _ stf2 hf2
                        refine ⟨by simp, ?_⟩
                        intro sp hsp
                        have hstep : sp ∈ stf.ents ∨ ∀ x ∈ sp.words, x = w := by
                          rcases he2 with he2 | ⟨sp2, he2, hwords⟩
                          · simp only [he2] at hsp; exact Or.inl hsp
                          · simp only [he2, List.mem_append, List.mem_singleton] at hsp
                            rcases hsp with hsp | rfl
                            · exact Or.inl hsp
                            · refine Or.inr fun x hx => ?_
                              rw [hwords] at hx
                              simpa using hx
                        rcases hstep with hstep | hstep
                        · rcases he1 with he1 | ⟨sp1, he1, hwords1⟩
                          · rw [he1] at hstep; exact Or.inl hstep
                          · rw [he1] at hstep
                            simp only [List.mem_append, List.mem_singleton] at hstep
                            rcases hstep with hstep | rfl
                            · exact Or.inl hstep
                            · exact Or.inr fun x hx => Or.inl (hwords1 ▸ hx)
                        · exact Or.inr fun x hx => Or.inr (hstep x hx)
              · rw [if_neg h5] at h
                injection h with h2
                subst h2
                exact ⟨fun x hx => Or.inl hx, fun sp hsp => Or.inl hsp⟩

/-- The word scan over one sentence preserves the single-sentence invariant:
provided every scanned word belongs to `s`, flushed spans either predate the
scan or consist of words of `s`. -/
theorem entScanWords_inv (sents : List Sentence) (s : Sentence) (hs : s ∈ sents)
    (dt : Value) :
    ∀ (ws : List Word) (st st2 : EntState),
      (∀ w ∈ ws, w ∈ s.words) →
      (∀ sp ∈ st.ents, spanIn sents sp) →
      (∀ x ∈ st.entWords, x ∈ s.words) →
      entScanWords dt st ws = some st2 →
      (∀ sp ∈ st2.ents, spanIn sents sp) ∧ (∀ x ∈ st2.entWords, x ∈ s.words) := by
  intro ws
  induction ws with
  | nil =>
      intro st st2 _ hents hx h
      have h2 : some st = some st2 := h
      injection h2 with h3
      subst h3
      exact ⟨hents, hx⟩
  | cons w ws2 ih =>
      intro st st2 hws hents hx h
      unfold entScanWords at h
      rw [ofoldlM] at h
      cases hstep : buildEntsStep dt st w with
      | none => rw [hstep] at h; simp at h
      | some stm =>
          rw [hstep] at h
          simp only [Option.bind_eq_bind, Option.some_bind] at h
          obtain ⟨hxm, hem⟩ := buildEntsStep_spec dt st stm w hstep
          have hwmem : w ∈ s.words := hws w (by simp)
          have hx2 : ∀ x ∈ stm.entWords, x ∈ s.words := by
            intro x hxx
            rcases hxm x hxx with hxx2 | rfl
            · exact hx x hxx2
            · exact hwmem
          have he2 : ∀ sp ∈ stm.ents, spanIn sents sp := by
            intro sp hsp
            rcases hem sp hsp with hsp2 | hsp2
            · exact hents sp hsp2
            · refine ⟨s, hs, fun x hxx => ?_⟩
              rcases hsp2 x hxx with hxx2 | rfl
              · exact hx x hxx2
              · exact hwmem
          exact ih stm st2 (fun x hxx => hws x (by simp [hxx])) he2 hx2 h

/-- One full sentence of the scan: flushed spans are confined to single
sentences and the in-progress list is reset. -/
theorem entScanSentence_inv (sents : List Sentence) (s : Sentence) (hs : s ∈ sents)
    (dt : Value) (st st2 : EntState)
    (hents : ∀ sp ∈ st.ents, spanIn sents sp) (hempty : st.entWords = [])
    (h : entScanSentence dt st s = some st2) :
    (∀ sp ∈ st2.ents, spanIn sents sp) ∧ st2.entWords = [] := by
  unfold entScanSentence at h
  cases hscan : entScanWords dt st s.words with
  | none => rw [hscan] at h; simp at h
  | some stm =>
      rw [hscan] at h
      simp only [Option.bind_eq_bind, Option.some_bind] at h
      obtain ⟨hem, hxm⟩ := entScanWords_inv sents s hs dt s.words st stm
        (fun w hw => hw) hents (by rw [hempty]; intro x hx; cases hx) hscan
      cases hfl : entFlush dt stm with
      | none => rw [hfl] at h; simp at h
      | some stf =>
          rw [hfl] at h
          simp only [Option.some_bind, Option.pure_def, Option.some.injEq] at h
          subst h
          obtain ⟨hwf, hef⟩ := entFlush_spec dt stm stf hfl
          refine ⟨?_, rfl⟩
          intro sp hsp
          rcases hef with hef | ⟨sp2, hef, hwords⟩
          · rw [hef] at hsp
            exact hem sp hsp
          · rw [hef] at hsp
            simp only [List.mem_append, List.mem_singleton] at hsp
            rcases hsp with hsp | rfl
            · exact hem sp hsp
            · exact ⟨s, hs, fun x hx => hxm x (hwords ▸ hx)⟩

/-- The sentence loop of `build_ents` preserves the invariant. -/
theorem entScanSentences_inv (sents : List Sentence) (dt : Value) :
    ∀ (ss : List Sentence) (st st2 : EntState),
      (∀ s ∈ ss, s ∈ sents) →
      (∀ sp ∈ st.ents, spanIn sents sp) →
      st.entWords = [] →
      ofoldlM (entScanSentence dt) st ss = some st2 →
      ∀ sp ∈ st2.ents, spanIn sents sp := by
  intro ss
  induction ss with
  | nil =>
      intro st st2 _ hents _ h
      have h2 : some st = some st2 := h
      injection h2 with h3
      subst h3
      exact hents
  | cons s ss2 ih =>
      intro st st2 hss hents hempty h
      rw [ofoldlM] at h
      cases hstep : entScanSentence dt st s with
      | none => rw [hstep] at h; simp at h
      | some stm =>
          rw [hstep] at h
          simp only [Option.bind_eq_bind, Option.some_bind] at h
          obtain ⟨hem, hxm⟩ := entScanSentence_inv sents s (hss s (by simp)) dt st stm
            hents hempty hstep
          exact ih stm st2 (fun x hx => hss x (by simp [hx])) hem hxm h

/-- Two-sentence document whose first sentence ends `I-LOC` and whose
second begins `I-LOC`. -/
def c5entries : List (List Entry) :=
  [[entryNer "1" "a" "I-LOC"], [entryNer "1" "b" "I-LOC"]]

/-- See `c5entries`. -/
def c5doc : Document := (mkDocument c5entries (.vstr "ab")).getD {}

/-- See `c5entries`. -/
def c5res : Document := c5doc.buildEnts.getD {}

/-- C5: every entity span produced by `build_ents` contains only words of a
single sentence (the unconditional flush at each sentence end prevents
cross-sentence entities), and concretely the `I-LOC`/`I-LOC` document of the
spec yields exactly two entities, not one. -/
theorem c5_ents_within_sentence :
    (∀ (d d2 : Document), d.buildEnts = some d2 →
      ∀ sp ∈ d2.ents, ∃ s ∈ d.sentences, ∀ w ∈ sp.words, w ∈ s.words) ∧
    (mkDocument c5entries (.vstr "ab") = some c5doc ∧
      c5doc.buildEnts = some c5res ∧ c5res.ents.length = 2) := by
  constructor
  · intro d d2 h
    unfold Document.buildEnts at h
    cases hscan : ofoldlM (entScanSentence d.text) {} d.sentences with
    | none => rw [hscan] at h; simp at h
    | some stF =>
        rw [hscan] at h
        simp only [Option.bind_eq_bind, Option.some_bind, Option.pure_def,
          Option.some.injEq] at h
        subst h
        intro sp hsp
        exact entScanSentences_inv d.sentences d.text d.sentences {} stF
          (fun s hs => hs) (by intro sp2 hsp2; cases hsp2) rfl hscan sp hsp
  · exact ⟨rfl, by decide, by decide⟩

/-- Witness for C5 at a concrete input: the first entity of the two-sentence
`I-LOC` document is confined to a single sentence. -/
theorem c5_ents_within_sentence_witness :
    ∃ s ∈ c5doc.sentences, ∀ w ∈ (c5res.ents.getD 0 {}).words, w ∈ s.words :=
  c5_ents_within_sentence.1 c5doc c5res (by decide) (c5res.ents.getD 0 {}) (by decide)

/-! ### C3: a failed `set_mwt_expansions` leaves the document mutated -/

/-- Two-word document with a complete dependency graph. -/
def c3entries : List (List Entry) := [[entryHD "1" "w1" 2 "nsubj", entryHD "2" "w2" 0 "root"]]

/-- See `c3entries`. -/
def c3doc : Document := (mkDocument c3entries .vnone).getD {}

/-- The document state carried by the failing count assert. -/
def c3mut : Document :=
  match c3doc.setMwtExpansions ["x"] with
  | .countMismatch d => d
  | _ => {}

/-- C3 counterexample: calling `set_mwt_expansions(['x'])` on a document with
no multi-word token fails the final count assert, but only after the whole
mutation and reprocessing have happened: in the state observed after the
raise every word's `head` and `deprel` have been cleared, so the operation
did not abort without mutation. -/
theorem c3_failed_mwt_mutates :
    mkDocument c3entries .vnone = some c3doc ∧
    (c3doc.sentences.map fun s => s.words.map Word.head) = [[.vint 2, .vint 0]] ∧
    c3doc.setMwtExpansions ["x"] = .countMismatch c3mut ∧
    (c3mut.sentences.map fun s => s.words.map Word.head) = [[.vnone, .vnone]] ∧
    (c3mut.sentences.map fun s => s.words.map Word.deprel) = [[.vnone, .vnone]] := by
  exact ⟨rfl, by decide, by decide, by decide, by decide⟩

/-! ### Decimal strings produced by `str(int)` -/

theorem digitChar_isDigit (d : Nat) (h : d < 10) : (digitChar d).isDigit = true := by
  interval_cases d <;> decide

theorem digitVal_digitChar (d : Nat) (h : d < 10) : digitVal (digitChar d) = d := by
  interval_cases d <;> decide

theorem natCharsAux_spec : ∀ (fuel n : Nat), n < fuel →
    natCharsAux fuel n ≠ [] ∧ (natCharsAux fuel n).all Char.isDigit = true ∧
      decDigits (natCharsAux fuel n) = n := by
  intro fuel
  induction fuel with
  | zero => intro n h; omega
  | succ fuel ih =>
      intro n h
      by_cases h10 : n < 10
      · rw [natCharsAux, if_pos h10]
        refine ⟨by simp, ?_, ?_⟩
        · simp [digitChar_isDigit n h10]
        · simp [decDigits, digitVal_digitChar n h10]
      · rw [natCharsAux, if_neg h10]
        have hdiv : n / 10 < fuel := by
          have := Nat.div_lt_self (by omega : 0 < n) (by omega : 1 < 10)
          omega
        obtain ⟨hne, hdig, hval⟩ := ih (n / 10) hdiv
        refine ⟨by simp, ?_, ?_⟩
        · rw [List.all_append]
          simp [hdig, digitChar_isDigit (n % 10) (Nat.mod_lt n (by omega))]
        · unfold decDigits
          rw [List.foldl_append]
          have : List.foldl (fun a c => 10 * a + digitVal c) 0 (natCharsAux fuel (n / 10))
              = n / 10 := hval
          simp [this, digitVal_digitChar (n % 10) (Nat.mod_lt n (by omega))]
          omega

theorem natStr_data (n : Nat) : (natStr n).data = natCharsAux (n + 1) n := rfl

theorem natStr_all_digits (n : Nat) :
    (natStr n).data ≠ [] ∧ (natStr n).data.all Char.isDigit = true ∧
      decDigits (natStr n).data = n := by
  rw [natStr_data]
  exact natCharsAux_spec (n + 1) n (by omega)

theorem isDigit_not_whitespace (c : Char) (h : c.isDigit = true) :
    c.isWhitespace = false := by
  simp only [Char.isDigit, decide_eq_true_eq, Bool.and_eq_true] at h
  simp only [Char.isWhitespace]
  have h1 : 48 ≤ c.val.toNat := by
    have := h.1
    simp only [ge_iff_le, Char.le_def, decide_eq_true_eq] at this
    exact this
  simp only [Bool.or_eq_false_iff, decide_eq_false_iff_not]
  refine ⟨⟨⟨?_, ?_⟩, ?_⟩, ?_⟩ <;>
    · intro hc
      subst hc
      revert h1
      decide

theorem isDigit_ne_dash (c : Char) (h : c.isDigit = true) : c ≠ '-' := by
  intro hc
  subst hc
  simp at h

theorem isDigit_ne_plus (c : Char) (h : c.isDigit = true) : c ≠ '+' := by
  intro hc
  subst hc
  simp at h

theorem dropWhile_ws_of_digits (l : List Char) (h : l.all Char.isDigit = true) :
    l.dropWhile Char.isWhitespace = l := by
  cases l with
  | nil => rfl
  | cons c cs =>
      rw [List.dropWhile_cons]
      have hc : c.isDigit = true := by
        rw [List.all_cons] at h
        exact (Bool.and_eq_true_iff.mp h).1
      rw [isDigit_not_whitespace c hc]
      simp

theorem parseIntChars_digits (l : List Char) (h1 : l ≠ [])
    (h2 : l.all Char.isDigit = true) :
    parseIntChars l = some ((decDigits l : Nat) : Int) := by
  unfold parseIntChars
  have hrev : l.reverse.all Char.isDigit = true := by
    rw [List.all_reverse]
    exact h2
  have hd1 : l.dropWhile Char.isWhitespace = l := dropWhile_ws_of_digits l h2
  have hd2 : l.reverse.dropWhile Char.isWhitespace = l.reverse :=
    dropWhile_ws_of_digits l.reverse hrev
  rw [hd1, hd2, List.reverse_reverse]
  cases hl : l with
  | nil => exact absurd hl h1
  | cons c cs =>
      rw [hl] at h2
      have hc : c.isDigit = true := by
        rw [List.all_cons] at h2
        exact (Bool.and_eq_true_iff.mp h2).1
      rw [parseSigned]
      rw [if_neg (isDigit_ne_dash c hc), if_neg (isDigit_ne_plus c hc), if_pos h2]

theorem pyInt_natStr (n : Nat) : pyInt (.vstr (natStr n)) = some (n : Int) := by
  obtain ⟨hne, hdig, hval⟩ := natStr_all_digits n
  show parseIntChars (natStr n).data = some (n : Int)
  rw [parseIntChars_digits _ hne hdig, hval]

theorem mwtIdMatch_natStr (n : Nat) : mwtIdMatch (natStr n) = none := by
  obtain ⟨hne, hdig, _⟩ := natStr_all_digits n
  unfold mwtIdMatch
  have hdrop : (natStr n).data.dropWhile Char.isDigit = [] := by
    rw [List.dropWhile_eq_nil_iff]
    intro x hx
    exact List.all_eq_true.mp hdig x hx
  rw [hdrop]
  have htake : (natStr n).data.takeWhile Char.isDigit = (natStr n).data := by
    rw [List.takeWhile_eq_self_iff]
    intro x hx
    exact List.all_eq_true.mp hdig x hx
  rw [htake]
  rw [if_neg (by simpa using hne)]

theorem natStr_ne_empty (n : Nat) : natStr n ≠ "" := by
  obtain ⟨hne, _, _⟩ := natStr_all_digits n
  intro h
  exact hne (by rw [h])

/-! ### Simple entries: plain single-word tokens without misc data -/

/-- The id value of a plain word entry: a string that parses as a
nonnegative integer and does not match the multi-word range pattern. -/
def idOkB : Option Value → Bool
  | some (.vstr s) =>
      (match parseIntChars s.data with
       | some k => decide (0 ≤ k)
       | none => false) && (mwtIdMatch s).isNone
  | _ => false

/-- A head value the `head` property setter accepts: absent, `None`, an
integer, or an integral string. -/
def headOkB : Option Value → Bool
  | none => true
  | some .vnone => true
  | some (.vint _) => true
  | some (.vstr hs) => (parseIntChars hs.data).isSome

/-- A plain word entry: id as in `idOkB`, truthy text, no misc key, and an
acceptable head.  Every entry of this shape is processed into exactly one
word wrapped in its own token, and serializing that word reproduces an entry
of the same shape. -/
def simpleEntry (e : Entry) : Bool :=
  idOkB e.id && truthy (e.text.getD .vnone) && decide (e.misc = none) && headOkB e.head

theorem parseIntChars_nil : parseIntChars [] = none := rfl

theorem parse_ne_nil (l : List Char) (k : Int) (h : parseIntChars l = some k) :
    l ≠ [] := by
  intro hl
  rw [hl, parseIntChars_nil] at h
  cases h

theorem parse_underscore : parseIntChars ("_" : String).data = none := by decide

theorem idOkB_elim (o : Option Value) (h : idOkB o = true) :
    ∃ s k, o = some (.vstr s) ∧ parseIntChars s.data = some k ∧ 0 ≤ k ∧
      mwtIdMatch s = none ∧ truthy (.vstr s) = true := by
  match o, h with
  | some (.vstr s), h =>
      simp only [idOkB, Bool.and_eq_true, Option.isNone_iff_eq_none] at h
      obtain ⟨hparse, hmatch⟩ := h
      cases hp : parseIntChars s.data with
      | none => rw [hp] at hparse; cases hparse
      | some k =>
          rw [hp] at hparse
          simp only [decide_eq_true_eq] at hparse
          refine ⟨s, k, rfl, hp, hparse, hmatch, ?_⟩
          have : s.data ≠ [] := parse_ne_nil s.data k hp
          simp only [truthy, ne_eq, decide_eq_true_eq]
          intro hs
          exact this (by rw [hs])

theorem headOkB_elim (o : Option Value) (h : headOkB o = true) :
    ∃ hv, headValOf (o.getD .vnone) = some hv := by
  match o, h with
  | none, _ => exact ⟨.vnone, rfl⟩
  | some .vnone, _ => exact ⟨.vnone, rfl⟩
  | some (.vint n), _ => exact ⟨.vint n, rfl⟩
  | some (.vstr hs), h =>
      simp only [headOkB, Option.isSome_iff_exists] at h
      obtain ⟨m, hm⟩ := h
      have hne : hs ≠ "_" := by
        intro hh
        rw [hh, parse_underscore] at hm
        cases hm
      refine ⟨.vint m, ?_⟩
      simp only [Option.getD_some, headValOf, isNull]
      rw [if_neg (by simp [hne])]
      show (pyInt (.vstr hs)).map Value.vint = some (.vint m)
      rw [show pyInt (.vstr hs) = parseIntChars hs.data from rfl, hm]
      rfl

/-- The word a plain entry constructs. -/
def simpleWord (e : Entry) : Word :=
  { id := e.id.getD .vnone
    text := e.text.getD .vnone
    lemm := lemmaValOf (e.text.getD .vnone) (e.lemm.getD .vnone)
    upos := optVal (e.upos.getD .vnone)
    xpos := optVal (e.xpos.getD .vnone)
    feats := optVal (e.feats.getD .vnone)
    head := (headValOf (e.head.getD .vnone)).getD .vnone
    deprel := optVal (e.deprel.getD .vnone)
    deps := optVal (e.deps.getD .vnone)
    misc := .vnone
    ner := optVal (e.ner.getD .vnone) }

/-- The one-word token a plain entry constructs around its word. -/
def simpleToken (e : Entry) : Token :=
  { id := e.id.getD .vnone, text := e.text.getD .vnone, misc := .vnone,
    words := [simpleWord e], startChar := .vnone, endChar := .vnone }

theorem withParent_self (w : Word) (h1 : w.parentStart = .vnone)
    (h2 : w.parentEnd = .vnone) : Word.withParent .vnone .vnone w = w := by
  cases w
  simp only [Word.withParent]
  simp_all

theorem wordFromEntry_simple (e : Entry) (h : simpleEntry e = true) :
    wordFromEntry e = some (simpleWord e) := by
  simp only [simpleEntry, Bool.and_eq_true, decide_eq_true_eq] at h
  obtain ⟨⟨⟨hid, htext⟩, hmisc⟩, hhead⟩ := h
  obtain ⟨s, k, hido, _, _, _, htr⟩ := idOkB_elim e.id hid
  obtain ⟨hv, hhv⟩ := headOkB_elim e.head hhead
  have htruthy : truthy (e.id.getD .vnone) = true := by rw [hido]; exact htr
  unfold wordFromEntry
  rw [htruthy, htext]
  simp only [Bool.and_self, if_true, hhv, Option.bind_eq_bind, Option.some_bind]
  have hmv : optVal (e.misc.getD .vnone) = .vnone := by rw [hmisc]; rfl
  simp only [hmv, ne_eq, not_true_eq_false, if_neg, reduceIte]
  simp only [Option.pure_def, Option.some.injEq]
  unfold simpleWord
  rw [hhv]
  rfl

theorem tokenFromEntry_simple (e : Entry) (h : simpleEntry e = true) :
    tokenFromEntry e [simpleWord e] = some (simpleToken e) := by
  simp only [simpleEntry, Bool.and_eq_true, decide_eq_true_eq] at h
  obtain ⟨⟨⟨hid, htext⟩, hmisc⟩, hhead⟩ := h
  obtain ⟨s, k, hido, _, _, _, htr⟩ := idOkB_elim e.id hid
  have htruthy : truthy (e.id.getD .vnone) = true := by rw [hido]; exact htr
  unfold tokenFromEntry
  rw [htruthy, htext]
  have hmv : optVal (e.misc.getD .vnone) = .vnone := by rw [hmisc]; rfl
  simp only [Bool.and_self, if_true, hmv, ne_eq, not_true_eq_false, reduceIte,
    Option.bind_eq_bind, Option.some_bind, Option.pure_def, Option.some.injEq]
  unfold simpleToken
  rw [List.map_cons, List.map_nil, withParent_self (simpleWord e) rfl rfl]

/-- Processing a plain entry appends one fresh one-word token and its word;
the open range (inactive at `-1`) is unchanged. -/
theorem processEntry_simple (e : Entry) (h : simpleEntry e = true)
    (st : Int) (toks : List Token) (ws : List Word) (i : Nat) :
    processEntry ⟨st, -1, toks, ws⟩ i e =
      some ⟨st, -1, toks ++ [simpleToken e], ws ++ [simpleWord e]⟩ := by
  have h0 := h
  simp only [simpleEntry, Bool.and_eq_true, decide_eq_true_eq] at h0
  obtain ⟨⟨⟨hid, htext⟩, hmisc⟩, hhead⟩ := h0
  obtain ⟨s, k, hido, hparse, hk, hmatch, htr⟩ := idOkB_elim e.id hid
  have hpy : pyInt (Value.vstr s) = some k := hparse
  unfold processEntry
  rw [if_neg (by rw [hido]; simp)]
  simp only [hido, hmisc, Option.getD_some, Option.getD_none, hmatch,
    Option.isSome_none, Bool.false_or, Bool.or_false, Bool.or_self,
    Option.bind_eq_bind, Option.some_bind, wordFromEntry_simple e h, hpy, reduceIte]
  rw [if_neg (show ¬ (k ≤ (-1 : Int)) by omega)]
  simp only [tokenFromEntry_simple e h, Option.some_bind, Option.pure_def,
    Option.some.injEq]
  rw [if_neg (by simp)]
  rw [show (simpleToken e).startChar = Value.vnone from rfl,
      show (simpleToken e).endChar = Value.vnone from rfl,
      withParent_self (simpleWord e) rfl rfl]

/-- The `_process_tokens` loop over plain entries: one token and one word
per entry, in order. -/
theorem processTokensAux_simple : ∀ (es : List Entry), (∀ e ∈ es, simpleEntry e = true) →
    ∀ (st : Int) (toks : List Token) (ws : List Word) (i : Nat),
    processTokensAux ⟨st, -1, toks, ws⟩ i es =
      some ⟨st, -1, toks ++ es.map simpleToken, ws ++ es.map simpleWord⟩ := by
  intro es
  induction es with
  | nil => intro _ st toks ws i; simp [processTokensAux]
  | cons e es2 ih =>
      intro hs st toks ws i
      rw [processTokensAux]
      rw [processEntry_simple e (hs e (by simp)) st toks ws i]
      simp only [Option.bind_eq_bind, Option.some_bind]
      rw [ih (fun x hx => hs x (by simp [hx])) st (toks ++ [simpleToken e])
        (ws ++ [simpleWord e]) (i + 1)]
      simp

/-- Two plain entry lists constructing the same tokens and words are
processed identically (the dependency epilogue only looks at the result). -/
theorem processTokensOn_simple_congr (s0 : Sentence) (es1 es2 : List Entry)
    (h1 : ∀ e ∈ es1, simpleEntry e = true) (h2 : ∀ e ∈ es2, simpleEntry e = true)
    (ht : es2.map simpleToken = es1.map simpleToken)
    (hw : es2.map simpleWord = es1.map simpleWord) :
    Sentence.processTokensOn s0 es2 = Sentence.processTokensOn s0 es1 := by
  unfold Sentence.processTokensOn
  rw [processTokensAux_simple es1 h1 (-1) [] [] 0,
    processTokensAux_simple es2 h2 (-1) [] [] 0, ht, hw]

/-- The token and word lists of a successfully processed plain-entry
sentence, and the preservation of the sentence text. -/
theorem processTokensOn_simple_parts (s0 : Sentence) (es : List Entry) (sn : Sentence)
    (hs : ∀ e ∈ es, simpleEntry e = true)
    (h : Sentence.processTokensOn s0 es = some sn) :
    sn.tokens = es.map simpleToken ∧ sn.words = es.map simpleWord ∧
      sn.text = s0.text := by
  unfold Sentence.processTokensOn at h
  rw [processTokensAux_simple es hs (-1) [] [] 0] at h
  simp only [Option.bind_eq_bind, Option.some_bind, List.nil_append] at h
  cases hlast : pyIndex (es.map simpleWord) (-1) with
  | none => rw [hlast] at h; simp at h
  | some lastW =>
      rw [hlast] at h
      simp only [Option.some_bind] at h
      cases hid : pyInt lastW.id with
      | none => rw [hid] at h; simp at h
      | some lastId =>
          rw [hid] at h
          simp only [Option.some_bind] at h
          by_cases hc : (((es.map simpleWord).all fun w => w.head ≠ .vnone && w.deprel ≠ .vnone) &&
              (((es.map simpleWord).length : Int) = lastId : Bool)) = true
          · rw [if_pos hc] at h
            cases hdeps : buildDependencies (es.map simpleWord) with
            | none => rw [hdeps] at h; simp at h
            | some deps =>
                rw [hdeps] at h
                simp only [Option.some_bind, Option.pure_def, Option.some.injEq] at h
                subst h
                exact ⟨rfl, rfl, rfl⟩
          · rw [if_neg hc] at h
            simp only [Option.pure_def, Option.some.injEq] at h
            subst h
            exact ⟨rfl, rfl, rfl⟩

/-! ### Serialization of plain words is idempotent -/

theorem reopt_eq (v : Value) : (optOf v).getD .vnone = v := by
  by_cases h : v = .vnone
  · rw [h]; rfl
  · rw [show optOf v = some v from by simp [optOf, h]]; rfl

theorem lemmaValOf_vnone (t : Value) : lemmaValOf t .vnone = .vnone := by
  unfold lemmaValOf
  split <;> rfl

theorem lemmaValOf_idem (t v : Value) :
    lemmaValOf t (lemmaValOf t v) = lemmaValOf t v := by
  by_cases hc : (!isNull v || t = Value.vstr "_") = true
  · have h1 : lemmaValOf t v = v := by unfold lemmaValOf; rw [if_pos hc]
    rw [h1]
    exact h1
  · have h1 : lemmaValOf t v = .vnone := by unfold lemmaValOf; rw [if_neg hc]
    rw [h1]
    exact lemmaValOf_vnone t

theorem optVal_idem (v : Value) : optVal (optVal v) = optVal v := by
  by_cases h : isNull v = true
  · rw [show optVal v = .vnone from by simp [optVal, h]]; rfl
  · have h2 : optVal v = v := by simp [optVal, h]
    rw [h2]
    exact h2

theorem headValOf_shape (v hv : Value) (h : headValOf v = some hv) :
    hv = .vnone ∨ ∃ n : Int, hv = .vint n := by
  unfold headValOf at h
  by_cases hn : isNull v = true
  · rw [if_pos hn] at h
    injection h with h2
    exact Or.inl h2.symm
  · rw [if_neg hn] at h
    cases hp : pyInt v with
    | none => rw [hp] at h; cases h
    | some n =>
        rw [hp] at h
        simp at h
        exact Or.inr ⟨n, h.symm⟩

theorem simpleWord_toDict (w : Word) :
    simpleWord (Word.toDict w) =
      { id := w.id, text := w.text, lemm := lemmaValOf w.text w.lemm,
        upos := optVal w.upos, xpos := optVal w.xpos, feats := optVal w.feats,
        head := (headValOf w.head).getD .vnone, deprel := optVal w.deprel,
        deps := optVal w.deps, misc := .vnone, ner := optVal w.ner } := by
  unfold simpleWord Word.toDict
  simp only [reopt_eq]

/-- Serializing the word of a plain entry yields another plain entry that
reconstructs the same word and token. -/
theorem normEntry_spec (e : Entry) (h : simpleEntry e = true) :
    simpleEntry (Word.toDict (simpleWord e)) = true ∧
    simpleWord (Word.toDict (simpleWord e)) = simpleWord e ∧
    simpleToken (Word.toDict (simpleWord e)) = simpleToken e := by
  have h0 := h
  simp only [simpleEntry, Bool.and_eq_true, decide_eq_true_eq] at h0
  obtain ⟨⟨⟨hid, htext⟩, hmisc⟩, hhead⟩ := h0
  obtain ⟨s, k, hido, hparse, hk, hmatch, htr⟩ := idOkB_elim e.id hid
  obtain ⟨hv, hhv⟩ := headOkB_elim e.head hhead
  have hidw : (simpleWord e).id = .vstr s := by rw [simpleWord, hido]; rfl
  have htextw : (simpleWord e).text = e.text.getD .vnone := rfl
  have htextne : e.text.getD .vnone ≠ .vnone := by
    intro hh
    rw [hh] at htext
    cases htext
  have hheadw : (simpleWord e).head = hv := by
    show (headValOf (e.head.getD .vnone)).getD .vnone = hv
    rw [hhv]
    rfl
  have hvfix : headValOf hv = some hv := by
    rcases headValOf_shape _ hv hhv with h2 | ⟨n, h2⟩ <;> subst h2 <;> rfl
  have hword : simpleWord (Word.toDict (simpleWord e)) = simpleWord e := by
    rw [simpleWord_toDict]
    unfold simpleWord
    simp only [lemmaValOf_idem, optVal_idem, hhv, Option.getD_some, hvfix]
  refine ⟨?_, hword, ?_⟩
  · simp only [simpleEntry, Bool.and_eq_true, decide_eq_true_eq]
    refine ⟨⟨⟨?_, ?_⟩, ?_⟩, ?_⟩
    · show idOkB (optOf (simpleWord e).id) = true
      rw [hidw]
      rw [show optOf (Value.vstr s) = some (Value.vstr s) from by simp [optOf]]
      rw [hido] at hid
      exact hid
    · show truthy ((optOf (simpleWord e).text).getD .vnone) = true
      rw [htextw, reopt_eq]
      exact htext
    · show optOf (simpleWord e).misc = none
      rw [show (simpleWord e).misc = .vnone from rfl]
      rfl
    · show headOkB (optOf (simpleWord e).head) = true
      rw [hheadw]
      rcases headValOf_shape _ hv hhv with h2 | ⟨n, h2⟩ <;> subst h2 <;> rfl
  · unfold simpleToken
    rw [hword]
    rw [show (Word.toDict (simpleWord e)).id.getD .vnone = (simpleWord e).id from reopt_eq _]
    rw [show (Word.toDict (simpleWord e)).text.getD .vnone = (simpleWord e).text from reopt_eq _]
    rw [hidw, htextw, hido]
    rfl

theorem flatten_map_singleton {α β : Type} (f : α → β) :
    ∀ l : List α, (l.map fun a => [f a]).flatten = l.map f
  | [] => rfl
  | a :: l => by
      simp only [List.map_cons, List.flatten_cons, List.singleton_append]
      rw [flatten_map_singleton f l]

theorem toDict_simpleToken (e : Entry) :
    Token.toDict (simpleToken e) = [Word.toDict (simpleWord e)] := rfl

/-- A sentence built from plain entries serializes to the per-entry word
dumps, and reconstructing from that serialization reproduces the sentence
exactly. -/
theorem mkSentence_simple_roundtrip (es : List Entry) (sn : Sentence)
    (hs : ∀ e ∈ es, simpleEntry e = true)
    (h : mkSentence es = some sn) :
    sn.toDict = es.map (fun e => Word.toDict (simpleWord e)) ∧
      mkSentence sn.toDict = some sn := by
  obtain ⟨htoks, hwords, htext⟩ := processTokensOn_simple_parts {} es sn hs h
  have hdict : sn.toDict = es.map fun e => Word.toDict (simpleWord e) := by
    unfold Sentence.toDict
    rw [htoks, List.map_map]
    rw [show Token.toDict ∘ simpleToken = fun e => [Word.toDict (simpleWord e)] from
      funext fun e => rfl]
    exact flatten_map_singleton _ es
  refine ⟨hdict, ?_⟩
  have hsimple2 : ∀ e2 ∈ sn.toDict, simpleEntry e2 = true := by
    rw [hdict]
    intro e2 he2
    rw [List.mem_map] at he2
    obtain ⟨e, hee, rfl⟩ := he2
    exact (normEntry_spec e (hs e hee)).1
  have hcongr : mkSentence sn.toDict = mkSentence es := by
    unfold mkSentence
    refine processTokensOn_simple_congr {} es sn.toDict hs hsimple2 ?_ ?_
    · rw [hdict, List.map_map]
      refine List.map_congr_left ?_
      intro e he
      exact (normEntry_spec e (hs e he)).2.2
    · rw [hdict, List.map_map]
      refine List.map_congr_left ?_
      intro e he
      exact (normEntry_spec e (hs e he)).2.1
  rw [hcongr]
  exact h

theorem pyIndex_neg_one_of_ne_nil {α : Type} (l : List α) (h : l ≠ []) :
    ∃ a, pyIndex l (-1) = some a := by
  unfold pyIndex
  rw [if_neg (by omega)]
  have hlen : 1 ≤ l.length := List.length_pos.mpr h
  simp only []
  rw [if_pos (by omega : (0 : Int) ≤ (l.length : Int) + -1)]
  have hlt : ((l.length : Int) + -1).toNat < l.length := by omega
  rw [List.get?_eq_get hlt]
  exact ⟨_, rfl⟩

/-- `_process_sentences` leaves a sentence untouched when the first token
carries no start offset. -/
theorem sentenceWithDocText_id (dt : Value) (sn : Sentence)
    (h1 : sn.tokens ≠ [])
    (h2 : ∀ t ∈ sn.tokens, t.startChar = .vnone) :
    sentenceWithDocText dt sn = some sn := by
  unfold sentenceWithDocText
  cases hts : sn.tokens with
  | nil => exact absurd hts h1
  | cons t0 ts =>
      have hfirst : pyIndex sn.tokens 0 = some t0 := by rw [hts]; rfl
      obtain ⟨tl, hlast⟩ := pyIndex_neg_one_of_ne_nil sn.tokens h1
      rw [hts] at hfirst hlast
      rw [hfirst, hlast]
      simp only [Option.bind_eq_bind, Option.some_bind]
      have hsc : t0.startChar = .vnone := h2 t0 (by rw [hts]; simp)
      rw [if_neg (by simp [hsc])]
      rfl

theorem omapM_map_of_fix {α β : Type} (f : α → Option β) (g : β → α) :
    ∀ (l : List α) (out : List β), omapM f l = some out →
      (∀ a ∈ l, ∀ b, f a = some b → f (g b) = some b) →
      omapM f (out.map g) = some out := by
  intro l
  induction l with
  | nil =>
      intro out h _
      have h2 : some [] = some out := h
      injection h2 with h3
      subst h3
      rfl
  | cons a l ih =>
      intro out h hfix
      rw [omapM] at h
      cases hfa : f a with
      | none => rw [hfa] at h; simp at h
      | some b =>
          rw [hfa] at h
          simp only [Option.bind_eq_bind, Option.some_bind] at h
          cases hrest : omapM f l with
          | none => rw [hrest] at h; simp at h
          | some out2 =>
              rw [hrest] at h
              simp only [Option.some_bind, Option.pure_def, Option.some.injEq] at h
              subst h
              rw [List.map_cons, omapM]
              rw [hfix a (by simp) b hfa]
              simp only [Option.bind_eq_bind, Option.some_bind]
              rw [ih out2 hrest (fun x hx => hfix x (by simp [hx]))]
              rfl

theorem processSentences_eq (d : Document) (sentences : List (List Entry)) :
    Document.processSentences d sentences =
      (omapM (fun entries => (mkSentence entries).bind (sentenceWithDocText d.text))
        sentences).bind
        fun ss => some { d with sentences := ss, numWords := (ss.map fun s => s.words.length).sum } := rfl

/-- C2 amended (round trip): a document built from plain word entries
(string ids parsing as nonnegative integers, no range ids, no misc data,
truthy texts, settable heads) reconstructs *identically* from its
serialization with the same raw text: in particular it has the same
per-word field values and the same sentence, token and word counts. -/
theorem c2_roundtrip_simple (sentences : List (List Entry)) (text : Value) (d : Document)
    (hs : ∀ es ∈ sentences, ∀ e ∈ es, simpleEntry e = true)
    (h : mkDocument sentences text = some d) :
    mkDocument d.toDict text = some d := by
  have hkey : ∀ es ∈ sentences, ∀ sn,
      (mkSentence es).bind (sentenceWithDocText text) = some sn →
      (mkSentence sn.toDict).bind (sentenceWithDocText text) = some sn := by
    intro es hes sn hsn
    cases hmk : mkSentence es with
    | none => rw [hmk] at hsn; simp at hsn
    | some sn0 =>
        rw [hmk] at hsn
        simp only [Option.some_bind] at hsn
        obtain ⟨htoks, hwords, _⟩ := processTokensOn_simple_parts {} es sn0 (hs es hes) hmk
        have hesne : es ≠ [] := by
          intro he
          subst he
          rw [show mkSentence [] = none from rfl] at hmk
          cases hmk
        have hne : sn0.tokens ≠ [] := by
          rw [htoks]
          simpa using hesne
        have hchars : ∀ t ∈ sn0.tokens, t.startChar = .vnone := by
          rw [htoks]
          intro t ht
          rw [List.mem_map] at ht
          obtain ⟨e, _, rfl⟩ := ht
          rfl
        have hid : sentenceWithDocText text sn0 = some sn0 :=
          sentenceWithDocText_id text sn0 hne hchars
        rw [hid] at hsn
        injection hsn with h2
        subst h2
        obtain ⟨hdict, hround⟩ := mkSentence_simple_roundtrip es sn0 (hs es hes) hmk
        rw [hround]
        simp only [Option.some_bind]
        exact hid
  unfold mkDocument at h ⊢
  rw [processSentences_eq] at h ⊢
  simp only [show ({ text := text } : Document).text = text from rfl] at h ⊢
  cases homap : omapM (fun entries => (mkSentence entries).bind (sentenceWithDocText text))
      sentences with
  | none => rw [homap] at h; simp at h
  | some ss =>
      rw [homap] at h
      simp only [Option.some_bind, Option.some.injEq] at h
      have hdict : d.toDict = ss.map Sentence.toDict := by
        rw [← h]
        rfl
      rw [hdict]
      rw [omapM_map_of_fix _ Sentence.toDict sentences ss homap hkey]
      simp only [Option.some_bind, Option.some.injEq]
      rw [← h]

/-! C2 counterexample: serialization drops the shell line of a one-word
multi-word token, which can re-associate following words and change the
token count. -/

/-- Entry for a multi-word shell token. -/
def entryMwt (idv tv : String) : Entry :=
  { id := some (.vstr idv), text := some (.vstr tv), misc := some (.vstr "MWT=Yes") }

/-- A document with a two-word token `1-3` followed by a one-word token
`3-3` (ranges as produced by tokenizers can overlap; construction accepts
this). -/
def c2entries : List (List Entry) :=
  [[entryMwt "1-3" "X", entryIT "1" "a", entryIT "2" "b", entryMwt "3-3" "Y", entryIT "3" "c"]]

/-- See `c2entries`. -/
def c2doc : Document := (mkDocument c2entries .vnone).getD {}

/-- The document reconstructed from `c2doc.to_dict()`. -/
def c2redoc : Document := (mkDocument c2doc.toDict .vnone).getD {}

/-- C2 counterexample: the document has 2 tokens, but its serialization
omits the `3-3` shell line (a token owning exactly one word emits no token
line), so on reconstruction word `3` falls inside the still-open `1-3`
range and attaches to the first token: the rebuilt document has 1 token.
The reconstruction succeeds and keeps all per-word values, yet the token
count differs, refuting the claim for this document. -/
theorem c2_serialization_not_faithful :
    mkDocument c2entries .vnone = some c2doc ∧
    (c2doc.sentences.map fun s => s.tokens.length) = [2] ∧
    mkDocument c2doc.toDict .vnone = some c2redoc ∧
    (c2redoc.sentences.map fun s => s.tokens.length) = [1] := by
  exact ⟨rfl, by decide, by decide, by decide⟩

/-- Witness for C2 amended at a concrete input: a two-sentence plain
document reconstructs identically. -/
theorem c2_roundtrip_simple_witness :
    mkDocument ((( mkDocument [[entryHD "1" "w1" 2 "nsubj", entryHD "2" "w2" 0 "root"],
      [entryIT "1" "z"]] (.vstr "t")).getD {}).toDict) (.vstr "t") =
      some ((mkDocument [[entryHD "1" "w1" 2 "nsubj", entryHD "2" "w2" 0 "root"],
      [entryIT "1" "z"]] (.vstr "t")).getD {}) :=
  c2_roundtrip_simple [[entryHD "1" "w1" 2 "nsubj", entryHD "2" "w2" 0 "root"],
    [entryIT "1" "z"]] (.vstr "t") _ (by decide) (by decide)

/-! ### C3 amended: the failure is raised only after full mutation -/

/-- A plain clean token: non-range string id, no misc, exactly one word
whose text is truthy and whose misc is unset.  The realistic shape of a
tokenized document with no multi-word tokens and no offset annotations. -/
def cleanTok (t : Token) : Bool :=
  (match t.id with
   | .vstr s => (mwtIdMatch s).isNone
   | _ => false) &&
  decide (t.misc = .vnone) &&
  decide (t.words.length = 1) &&
  t.words.all fun w => truthy w.text && decide (w.misc = .vnone)

/-- The renumbering `set_mwt_expansions` applies to the word of a plain
token at position `k`. -/
def mutWord (k : Nat) (w : Word) : Word :=
  { w with id := .vstr (natStr k), head := .vnone, deprel := .vnone }

/-- The mutation `set_mwt_expansions` applies to a plain token at position
`k`. -/
def mutTok (k : Nat) (t : Token) : Token :=
  { t with words := t.words.map fun w =>
    { w with id := .vstr (natStr k), head := .vnone, deprel := .vnone } }

theorem mwtTokenStep_clean (exps : List String) (idxW idxE : Nat) (t : Token)
    (hc : cleanTok t = true) :
    mwtTokenStep exps idxW idxE t = some (mutTok (idxW + 1) t, idxW + 1, idxE) := by
  simp only [cleanTok, Bool.and_eq_true, decide_eq_true_eq] at hc
  obtain ⟨⟨⟨hid, hmisc⟩, hlen⟩, hws⟩ := hc
  cases hido : t.id with
  | vnone => rw [hido] at hid; cases hid
  | vint n => rw [hido] at hid; cases hid
  | vstr s =>
      rw [hido] at hid
      rw [Option.isNone_iff_eq_none] at hid
      unfold mwtTokenStep
      simp only [hido, hid, hmisc, Option.isSome_none, Bool.not_false, Bool.and_self,
        Option.pure_def, Option.bind_eq_bind, Option.some_bind, Bool.and_true,
        if_true, reduceIte]
      unfold mutTok
      rw [hido, hmisc]

/-- The token loop of `set_mwt_expansions` over plain clean tokens:
renumber each token's word to the token position, consume no expansion. -/
theorem mwtTokensAux_clean (exps : List String) :
    ∀ (ts : List Token) (idxW idxE : Nat), (∀ t ∈ ts, cleanTok t = true) →
      mwtTokensAux exps ts idxW idxE =
        some ((ts.enumFrom (idxW + 1)).map (fun p => mutTok p.1 p.2), idxE) := by
  intro ts
  induction ts with
  | nil => intro idxW idxE _; rfl
  | cons t ts2 ih =>
      intro idxW idxE hs
      rw [mwtTokensAux]
      rw [mwtTokenStep_clean exps idxW idxE t (hs t (by simp))]
      simp only [Option.bind_eq_bind, Option.some_bind]
      rw [ih (idxW + 1) idxE (fun x hx => hs x (by simp [hx]))]
      simp only [Option.some_bind, List.enumFrom, List.map_cons, Option.pure_def]

theorem pyIndex_neg_one_mem {α : Type} (l : List α) (a : α)
    (h : pyIndex l (-1) = some a) : a ∈ l := by
  unfold pyIndex at h
  rw [if_neg (by omega)] at h
  simp only [] at h
  by_cases hj : (0 : Int) ≤ (l.length : Int) + -1
  · rw [if_pos hj] at h
    exact List.get?_mem h
  · rw [if_neg hj] at h
    cases h

/-- Processing plain entries at least one of which lacks a head: the
dependency rebuild is skipped and the result is the plain token/word lists. -/
theorem processTokensOn_simple_success (s0 : Sentence) (es : List Entry)
    (hs : ∀ e ∈ es, simpleEntry e = true) (hne : es ≠ [])
    (hhd : ∀ e ∈ es, (simpleWord e).head = .vnone) :
    Sentence.processTokensOn s0 es =
      some { s0 with tokens := es.map simpleToken, words := es.map simpleWord } := by
  unfold Sentence.processTokensOn
  rw [processTokensAux_simple es hs (-1) [] [] 0]
  simp only [Option.bind_eq_bind, Option.some_bind, List.nil_append]
  have hwne : es.map simpleWord ≠ [] := by simpa using hne
  obtain ⟨lastW, hlast⟩ := pyIndex_neg_one_of_ne_nil (es.map simpleWord) hwne
  rw [hlast]
  simp only [Option.some_bind]
  have hmem := pyIndex_neg_one_mem _ _ hlast
  rw [List.mem_map] at hmem
  obtain ⟨e0, he0, rfl⟩ := hmem
  have he0s := hs e0 he0
  simp only [simpleEntry, Bool.and_eq_true, decide_eq_true_eq] at he0s
  obtain ⟨⟨⟨hid, _⟩, _⟩, _⟩ := he0s
  obtain ⟨s, k, hido, hparse, _, _, _⟩ := idOkB_elim e0.id hid
  have hpid : pyInt (simpleWord e0).id = some k := by
    rw [show (simpleWord e0).id = e0.id.getD .vnone from rfl, hido]
    exact hparse
  rw [hpid]
  simp only [Option.some_bind]
  have hfalse : ((es.map simpleWord).all fun w => w.head ≠ .vnone && w.deprel ≠ .vnone) = false := by
    rw [List.all_eq_false]
    refine ⟨simpleWord e0, List.mem_map_of_mem _ he0, ?_⟩
    rw [hhd e0 he0]
    simp
  rw [hfalse]
  simp

/-- The word line serialized for a renumbered plain word is itself a plain
entry whose reconstruction has no head or relation. -/
theorem wordline_simple (k : Nat) (w : Word) (htx : truthy w.text = true)
    (hm : w.misc = .vnone) :
    simpleEntry (Word.toDict (mutWord k w)) = true ∧
    (simpleWord (Word.toDict (mutWord k w))).head = .vnone ∧
    (simpleWord (Word.toDict (mutWord k w))).deprel = .vnone := by
  have htne : w.text ≠ .vnone := by
    intro hh
    rw [hh] at htx
    cases htx
  refine ⟨?_, ?_, ?_⟩
  · simp only [simpleEntry, Bool.and_eq_true, decide_eq_true_eq]
    refine ⟨⟨⟨?_, ?_⟩, ?_⟩, ?_⟩
    · show idOkB (optOf (mutWord k w).id) = true
      rw [show (mutWord k w).id = .vstr (natStr k) from rfl]
      rw [show optOf (.vstr (natStr k)) = some (.vstr (natStr k)) from by simp [optOf]]
      obtain ⟨hne, hdig, hval⟩ := natStr_all_digits k
      simp only [idOkB]
      rw [parseIntChars_digits _ hne hdig, hval]
      simp [mwtIdMatch_natStr k]
    · show truthy ((optOf (mutWord k w).text).getD .vnone) = true
      rw [show (mutWord k w).text = w.text from rfl, reopt_eq]
      exact htx
    · show optOf (mutWord k w).misc = none
      rw [show (mutWord k w).misc = w.misc from rfl, hm]
      rfl
    · show headOkB (optOf (mutWord k w).head) = true
      rw [show (mutWord k w).head = .vnone from rfl]
      rfl
  · show (headValOf ((optOf (mutWord k w).head).getD .vnone)).getD .vnone = .vnone
    rw [show (mutWord k w).head = .vnone from rfl, reopt_eq]
    rfl
  · show optVal ((optOf (mutWord k w).deprel).getD .vnone) = .vnone
    rw [show (mutWord k w).deprel = .vnone from rfl, reopt_eq]
    rfl

/-- A serialized word line that is plain and carries no dependency info. -/
def goodEntry (e : Entry) : Bool :=
  simpleEntry e && decide ((simpleWord e).head = .vnone) &&
    decide ((simpleWord e).deprel = .vnone)

theorem goodEntry_wordline (k : Nat) (w : Word) (htx : truthy w.text = true)
    (hm : w.misc = .vnone) : goodEntry (Word.toDict (mutWord k w)) = true := by
  obtain ⟨h1, h2, h3⟩ := wordline_simple k w htx hm
  simp only [goodEntry, Bool.and_eq_true, decide_eq_true_eq]
  exact ⟨⟨h1, h2⟩, h3⟩

theorem goodEntry_toDict (e : Entry) (hg : goodEntry e = true) :
    goodEntry (Word.toDict (simpleWord e)) = true := by
  simp only [goodEntry, Bool.and_eq_true, decide_eq_true_eq] at hg ⊢
  obtain ⟨⟨hs, hh⟩, hd⟩ := hg
  obtain ⟨hs2, hw2, _⟩ := normEntry_spec e hs
  exact ⟨⟨hs2, by rw [hw2]; exact hh⟩, by rw [hw2]; exact hd⟩

theorem omapM_forall_exists {α β : Type} (f : α → Option β) (P : β → Prop) :
    ∀ l : List α, (∀ a ∈ l, ∃ b, f a = some b ∧ P b) →
      ∃ out, omapM f l = some out ∧ ∀ b ∈ out, P b
  | [], _ => ⟨[], rfl, by intro b hb; cases hb⟩
  | a :: l, h => by
      obtain ⟨b, hb, hPb⟩ := h a (by simp)
      obtain ⟨out, hout, hPout⟩ := omapM_forall_exists f P l (fun x hx => h x (by simp [hx]))
      refine ⟨b :: out, ?_, ?_⟩
      · rw [omapM, hb]
        simp only [Option.bind_eq_bind, Option.some_bind, hout]
        rfl
      · intro b2 hb2
        rcases List.mem_cons.mp hb2 with h2 | h2
        · subst h2; exact hPb
        · exact hPout b2 h2

/-- Destructor for a clean token: its single word and the serialization of
its mutation. -/
theorem cleanTok_elim (t : Token) (hc : cleanTok t = true) :
    ∃ w, t.words = [w] ∧ truthy w.text = true ∧ w.misc = .vnone ∧
      ∀ k, Token.toDict (mutTok k t) = [Word.toDict (mutWord k w)] := by
  simp only [cleanTok, Bool.and_eq_true, decide_eq_true_eq] at hc
  obtain ⟨⟨⟨_, _⟩, hlen⟩, hall⟩ := hc
  obtain ⟨w, hw⟩ := List.length_eq_one.mp hlen
  have hwmem : w ∈ t.words := by rw [hw]; simp
  rw [List.all_eq_true] at hall
  have hprop := hall w hwmem
  simp only [Bool.and_eq_true, decide_eq_true_eq] at hprop
  obtain ⟨htx, hmisc⟩ := hprop
  refine ⟨w, hw, htx, hmisc, ?_⟩
  intro k
  have hwords : (mutTok k t).words = [mutWord k w] := by
    show t.words.map _ = _
    rw [hw]
    rfl
  unfold Token.toDict
  rw [hwords]
  rw [if_neg (by simp)]
  rfl

theorem toDict_simple_list (s0 : Sentence) (es : List Entry) :
    Sentence.toDict { s0 with tokens := es.map simpleToken, words := es.map simpleWord } =
      es.map fun e => Word.toDict (simpleWord e) := by
  show (List.map Token.toDict (es.map simpleToken)).flatten = _
  rw [List.map_map]
  rw [show Token.toDict ∘ simpleToken = fun e => [Word.toDict (simpleWord e)] from
    funext fun e => rfl]
  exact flatten_map_singleton _ es

/-- Processing a nonempty list of plain dependency-free word lines: one
fresh offset-free token per line, no dependency info on any word, and the
result serializes to another such list. -/
theorem sentence_good_step (s0 : Sentence) (es : List Entry)
    (hg : ∀ e ∈ es, goodEntry e = true) (hne : es ≠ []) :
    ∃ s1, Sentence.processTokensOn s0 es = some s1 ∧
      s1.tokens ≠ [] ∧ (∀ t ∈ s1.tokens, t.startChar = .vnone) ∧
      (∀ w ∈ s1.words, w.head = .vnone ∧ w.deprel = .vnone) ∧
      s1.toDict ≠ [] ∧ (∀ e2 ∈ s1.toDict, goodEntry e2 = true) := by
  have hs : ∀ e ∈ es, simpleEntry e = true := by
    intro e he
    have h2 := hg e he
    simp only [goodEntry, Bool.and_eq_true] at h2
    exact h2.1.1
  have hhd : ∀ e ∈ es, (simpleWord e).head = .vnone := by
    intro e he
    have h2 := hg e he
    simp only [goodEntry, Bool.and_eq_true, decide_eq_true_eq] at h2
    exact h2.1.2
  have hdr : ∀ e ∈ es, (simpleWord e).deprel = .vnone := by
    intro e he
    have h2 := hg e he
    simp only [goodEntry, Bool.and_eq_true, decide_eq_true_eq] at h2
    exact h2.2
  refine ⟨_, processTokensOn_simple_success s0 es hs hne hhd, ?_, ?_, ?_, ?_, ?_⟩
  · show es.map simpleToken ≠ []
    simpa using hne
  · show ∀ t ∈ es.map simpleToken, t.startChar = .vnone
    intro t ht
    rw [List.mem_map] at ht
    obtain ⟨e, _, rfl⟩ := ht
    rfl
  · show ∀ w ∈ es.map simpleWord, w.head = .vnone ∧ w.deprel = .vnone
    intro w hw
    rw [List.mem_map] at hw
    obtain ⟨e, he, rfl⟩ := hw
    exact ⟨hhd e he, hdr e he⟩
  · rw [toDict_simple_list]
    simpa using hne
  · rw [toDict_simple_list]
    intro e2 he2
    rw [List.mem_map] at he2
    obtain ⟨e, he, rfl⟩ := he2
    exact goodEntry_toDict e (hg e he)

/-- One sentence of `set_mwt_expansions` on a clean sentence: no expansion is
consumed, and the reprocessed sentence has every word's dependency info
cleared, offset-free tokens, and a plain dependency-free serialization. -/
theorem mwtSentenceStep_clean (exps : List String) (s : Sentence) (idxE : Nat)
    (hne : s.tokens ≠ []) (hc : ∀ t ∈ s.tokens, cleanTok t = true) :
    ∃ s2, mwtSentenceStep exps s idxE = some (s2, idxE) ∧
      s2.tokens ≠ [] ∧ (∀ t ∈ s2.tokens, t.startChar = .vnone) ∧
      (∀ w ∈ s2.words, w.head = .vnone ∧ w.deprel = .vnone) ∧
      s2.toDict ≠ [] ∧ (∀ e ∈ s2.toDict, goodEntry e = true) := by
  have hts2 := mwtTokensAux_clean exps s.tokens 0 idxE hc
  unfold mwtSentenceStep
  rw [hts2]
  simp only [Option.bind_eq_bind, Option.some_bind]
  set tsM := (s.tokens.enumFrom (0 + 1)).map (fun p => mutTok p.1 p.2) with htsM
  have hsnd : ∀ p ∈ s.tokens.enumFrom (0 + 1), p.2 ∈ s.tokens := by
    rw [List.forall_mem_enumFrom]
    intro i hi
    exact List.getElem_mem hi
  have hmemGood : ∀ e ∈ (tsM.map Token.toDict).flatten, goodEntry e = true := by
    intro e he
    rw [List.mem_flatten] at he
    obtain ⟨es1, hes1, hees1⟩ := he
    rw [List.mem_map] at hes1
    obtain ⟨t2, ht2, rfl⟩ := hes1
    rw [htsM, List.mem_map] at ht2
    obtain ⟨p, hp, rfl⟩ := ht2
    obtain ⟨w, hw, htx, hmisc, hdone⟩ := cleanTok_elim p.2 (hc p.2 (hsnd p hp))
    rw [hdone p.1, List.mem_singleton] at hees1
    subst hees1
    exact goodEntry_wordline p.1 w htx hmisc
  have hflat_ne : (tsM.map Token.toDict).flatten ≠ [] := by
    cases hst : s.tokens with
    | nil => exact absurd hst hne
    | cons t0 ts0 =>
        obtain ⟨w, hw, htx, hmisc, hdone⟩ :=
          cleanTok_elim t0 (hc t0 (by rw [hst]; simp))
        rw [htsM, hst]
        simp only [List.enumFrom, List.map_cons, List.flatten_cons]
        rw [hdone (0 + 1)]
        simp
  obtain ⟨s1, hs1, p1, p2, p3, p4, p5⟩ :=
    sentence_good_step { s with tokens := tsM }
      (Sentence.toDict { s with tokens := tsM }) hmemGood hflat_ne
  rw [hs1]
  exact ⟨s1, rfl, p1, p2, p3, p4, p5⟩

/-- The sentence loop of `set_mwt_expansions` over clean sentences consumes
no expansion and clears all dependency info. -/
theorem mwtSentencesAux_clean (exps : List String) :
    ∀ (ss : List Sentence) (idxE : Nat),
      (∀ s ∈ ss, s.tokens ≠ [] ∧ ∀ t ∈ s.tokens, cleanTok t = true) →
      ∃ ss2, mwtSentencesAux exps ss idxE = some (ss2, idxE) ∧
        ∀ s2 ∈ ss2, s2.tokens ≠ [] ∧ (∀ t ∈ s2.tokens, t.startChar = .vnone) ∧
          (∀ w ∈ s2.words, w.head = .vnone ∧ w.deprel = .vnone) ∧
          s2.toDict ≠ [] ∧ (∀ e ∈ s2.toDict, goodEntry e = true)
  | [], idxE, _ => ⟨[], rfl, by intro s2 hs2; cases hs2⟩
  | s :: ss, idxE, h => by
      obtain ⟨s2, hstep, props⟩ :=
        mwtSentenceStep_clean exps s idxE (h s (by simp)).1 (h s (by simp)).2
      obtain ⟨ss2, hrest, props2⟩ :=
        mwtSentencesAux_clean exps ss idxE (fun x hx => h x (by simp [hx]))
      refine ⟨s2 :: ss2, ?_, ?_⟩
      · rw [mwtSentencesAux, hstep]
        simp only [Option.bind_eq_bind, Option.some_bind, hrest]
        rfl
      · intro x hx
        rcases List.mem_cons.mp hx with h2 | h2
        · subst h2; exact props
        · exact props2 x h2

/-- Reduction of `set_mwt_expansions` when both phases succeed but the count
assert fails. -/
theorem setMwtExpansions_spec (d : Document) (exps : List String) (ss2 : List Sentence)
    (idxE : Nat) (d2 : Document)
    (h1 : mwtSentencesAux exps d.sentences 0 = some (ss2, idxE))
    (h2 : Document.processSentences { d with sentences := ss2 }
        (Document.toDict { d with sentences := ss2 }) = some d2)
    (h3 : idxE ≠ exps.length) :
    d.setMwtExpansions exps = .countMismatch d2 := by
  unfold Document.setMwtExpansions
  rw [h1]
  simp only [h2, if_neg h3]

/-- **C3 (amended).** When `set_mwt_expansions(expansions)` is called with a
nonempty expansion list on a document with no multi-word tokens (every token
plain and clean), the consumed count `0` differs from `len(expansions)` and
the final assert fails — but only after the whole mutation and reprocessing
have happened: the document state observed at the raise has every word's
`head` and `deprel` cleared.  The operation does not abort without partial
mutation; callers observe a fully mutated document. -/
theorem c3_count_mismatch_after_mutation (d : Document) (exps : List String)
    (hne : exps ≠ [])
    (hclean : ∀ s ∈ d.sentences, s.tokens ≠ [] ∧ ∀ t ∈ s.tokens, cleanTok t = true) :
    ∃ d2, d.setMwtExpansions exps = .countMismatch d2 ∧
      ∀ s2 ∈ d2.sentences, ∀ w ∈ s2.words, w.head = .vnone ∧ w.deprel = .vnone := by
  obtain ⟨ss2, hss2, hprops⟩ := mwtSentencesAux_clean exps d.sentences 0 hclean
  have hper : ∀ entries ∈ ss2.map Sentence.toDict,
      ∃ s3, (mkSentence entries).bind (sentenceWithDocText d.text) = some s3 ∧
        (∀ w ∈ s3.words, w.head = .vnone ∧ w.deprel = .vnone) := by
    intro entries hentries
    rw [List.mem_map] at hentries
    obtain ⟨s2, hs2mem, rfl⟩ := hentries
    obtain ⟨_, _, _, hdne, hdgood⟩ := hprops s2 hs2mem
    obtain ⟨s3, hs3, ht3, hst3, hw3, _, _⟩ :=
      sentence_good_step {} (Sentence.toDict s2) hdgood hdne
    refine ⟨s3, ?_, hw3⟩
    rw [show mkSentence (Sentence.toDict s2) =
      Sentence.processTokensOn {} (Sentence.toDict s2) from rfl, hs3]
    exact sentenceWithDocText_id d.text s3 ht3 hst3
  obtain ⟨ss3, hss3, hP3⟩ := omapM_forall_exists
    (fun entries => (mkSentence entries).bind (sentenceWithDocText d.text))
    (fun s3 => ∀ w ∈ s3.words, w.head = .vnone ∧ w.deprel = .vnone)
    (ss2.map Sentence.toDict) hper
  have hkey : Document.processSentences { d with sentences := ss2 }
      (Document.toDict { d with sentences := ss2 }) =
      some { d with sentences := ss3, numWords := (ss3.map fun s => s.words.length).sum } := by
    rw [processSentences_eq]
    rw [show Document.toDict { d with sentences := ss2 } = ss2.map Sentence.toDict from rfl]
    rw [show ({ d with sentences := ss2 } : Document).text = d.text from rfl]
    rw [hss3]
    rfl
  have h3 : (0 : Nat) ≠ exps.length := by
    intro hh
    exact hne (List.length_eq_zero.mp hh.symm)
  refine ⟨_, setMwtExpansions_spec d exps ss2 0 _ hss2 hkey h3, ?_⟩
  intro s2 hs2
  exact hP3 s2 hs2

/-- Witness for the amended C3 at a concrete input: the two-word document
with a complete dependency graph and the one-element expansion list. -/
theorem c3_count_mismatch_after_mutation_witness :
    (["x"] : List String) ≠ [] ∧
    ∃ d2, c3doc.setMwtExpansions ["x"] = .countMismatch d2 ∧
      ∀ s2 ∈ d2.sentences, ∀ w ∈ s2.words, w.head = .vnone ∧ w.deprel = .vnone :=
  ⟨by decide, c3_count_mismatch_after_mutation c3doc ["x"] (by decide) (by decide)⟩

/-! ### C8: set_mwt_expansions followed by get_mwt_expansions -/

/-- An unexpanded multi-word token as produced by a tokenizer: a range id,
the misc marker `MWT=Yes`, and a truthy text. -/
def mwtTok1 (t : Token) : Bool :=
  (match t.id with | .vstr s => (mwtIdMatch s).isSome | _ => false) &&
  decide (t.misc = .vstr "MWT=Yes") && truthy t.text

/-- The entry dict `{ID: str(i), TEXT: p}` built for one expanded word. -/
def pieceEntry (i : Nat) (p : String) : Entry :=
  { id := some (.vstr (natStr i)), text := some (.vstr p) }

/-- The nonempty pieces of an expansion string:
`[x for x in exp.split(' ') if len(x) > 0]`. -/
def pieces (exp : String) : List String :=
  (pySplit ' ' exp).filter fun x => x ≠ ""

/-- The fresh words a multi-word token receives from an expansion when its
range starts at word index 1. -/
def pieceWords (exp : String) : List Word :=
  (pieces exp).enum.map fun ip => simpleWord (pieceEntry (1 + ip.1) ip.2)

/-- The mutation `set_mwt_expansions` applies to a multi-word token at the
start of its sentence: misc cleared, range id rewritten, fresh words. -/
def mwtNewTok (t : Token) (exp : String) : Token :=
  { t with misc := .vnone, id := .vstr (natStr 1 ++ "-" ++ natStr (pieces exp).length), words := pieceWords exp }

/-- The shape of an expanded multi-word token after reprocessing, carrying
only its text `tx` from the original token. -/
def mwtOutTok (tx : Value) (exp : String) : Token :=
  { id := .vstr (natStr 1 ++ "-" ++ natStr (pieces exp).length), text := tx,
    misc := .vnone, words := pieceWords exp }

theorem takeWhile_append_not {α : Type} (p : α → Bool) (x : α) (hx : p x = false) :
    ∀ (l1 l2 : List α), l1.all p = true →
      (l1 ++ x :: l2).takeWhile p = l1 ∧ (l1 ++ x :: l2).dropWhile p = x :: l2
  | [], l2, _ => by simp [List.takeWhile, List.dropWhile, hx]
  | a :: l1, l2, h => by
      rw [List.all_cons, Bool.and_eq_true] at h
      obtain ⟨ha, h1⟩ := h
      obtain ⟨ih1, ih2⟩ := takeWhile_append_not p x hx l1 l2 h1
      constructor
      · rw [List.cons_append, List.takeWhile_cons, ha]
        simp [ih1]
      · rw [List.cons_append, List.dropWhile_cons, ha]
        simp [ih2]

/-- `re.match("([0-9]+)-([0-9]+)", str(a) + "-" + str(b))` yields the groups
`(a, b)`. -/
theorem mwtIdMatch_range (a b : Nat) :
    mwtIdMatch (natStr a ++ "-" ++ natStr b) = some (a, b) := by
  obtain ⟨hne1, hdig1, hval1⟩ := natStr_all_digits a
  obtain ⟨hne2, hdig2, hval2⟩ := natStr_all_digits b
  have hdata : (natStr a ++ "-" ++ natStr b).data =
      (natStr a).data ++ '-' :: (natStr b).data := by
    rw [String.data_append, String.data_append, List.append_assoc]
    rfl
  have hdash : Char.isDigit '-' = false := by decide
  obtain ⟨htake, hdrop⟩ :=
    takeWhile_append_not Char.isDigit '-' hdash (natStr a).data (natStr b).data hdig1
  have htake2 : (natStr b).data.takeWhile Char.isDigit = (natStr b).data := by
    rw [List.takeWhile_eq_self_iff]
    intro c hc
    rw [List.all_eq_true] at hdig2
    exact hdig2 c hc
  unfold mwtIdMatch
  rw [hdata, htake, hdrop]
  rw [if_neg (by simpa using hne1)]
  simp only [htake2]
  rw [if_neg (by simpa using hne2), hval1, hval2]

theorem range_id_ne_empty (a b : Nat) : (natStr a ++ "-" ++ natStr b) ≠ "" := by
  obtain ⟨hne1, _, _⟩ := natStr_all_digits a
  intro h
  have : (natStr a ++ "-" ++ natStr b).data = [] := by rw [h]
  rw [String.data_append, String.data_append] at this
  simp at this

theorem enumFrom_map_snd {α : Type} : ∀ (n : Nat) (l : List α),
    (l.enumFrom n).map Prod.snd = l
  | _, [] => rfl
  | n, a :: l => by
      simp only [List.enumFrom, List.map_cons]
      rw [enumFrom_map_snd (n + 1) l]

theorem omapM_comp_map {α β γ : Type} (f : β → Option γ) (g : α → β) :
    ∀ l : List α, omapM f (l.map g) = omapM (fun a => f (g a)) l
  | [] => rfl
  | a :: l => by
      rw [List.map_cons, omapM, omapM, omapM_comp_map f g l]

theorem omapM_eq_map {α β : Type} (f : α → Option β) (g : α → β) :
    ∀ l : List α, (∀ a ∈ l, f a = some (g a)) → omapM f l = some (l.map g)
  | [], _ => rfl
  | a :: l, h => by
      rw [omapM, h a (by simp), omapM_eq_map f g l (fun x hx => h x (by simp [hx]))]
      rfl

theorem pieces_mem_ne (exp : String) : ∀ p ∈ pieces exp, p ≠ "" := by
  intro p hp
  unfold pieces at hp
  rw [List.mem_filter] at hp
  simpa using hp.2

theorem enum_snd_mem {α : Type} (l : List α) : ∀ p ∈ l.enum, p.2 ∈ l := by
  show ∀ p ∈ l.enumFrom 0, p.2 ∈ l
  rw [List.forall_mem_enumFrom]
  intro i hi
  exact List.getElem_mem hi

theorem pieceEntry_good (i : Nat) (p : String) (hp : p ≠ "") :
    goodEntry (pieceEntry i p) = true := by
  simp only [goodEntry, simpleEntry, Bool.and_eq_true, decide_eq_true_eq]
  refine ⟨⟨⟨⟨⟨?_, ?_⟩, ?_⟩, ?_⟩, ?_⟩, ?_⟩
  · show idOkB (some (.vstr (natStr i))) = true
    obtain ⟨hne, hdig, hval⟩ := natStr_all_digits i
    simp only [idOkB]
    rw [parseIntChars_digits _ hne hdig, hval]
    simp [mwtIdMatch_natStr i]
  · show truthy ((some (Value.vstr p)).getD .vnone) = true
    simpa [truthy] using hp
  · rfl
  · rfl
  · rfl
  · rfl

/-- The multi-word branch of the `set_mwt_expansions` token loop at the start
of a sentence: consume the next expansion, rewrite misc and range id, and
install one fresh word per nonempty piece. -/
theorem mwtTokenStep_mwt1 (exps : List String) (idxE : Nat) (t : Token) (exp : String)
    (ht : mwtTok1 t = true) (hE : exps.get? idxE = some exp)
    (hp : 1 ≤ (pieces exp).length) :
    mwtTokenStep exps 0 idxE t = some (mwtNewTok t exp, (pieces exp).length, idxE + 1) := by
  simp only [mwtTok1, Bool.and_eq_true, decide_eq_true_eq] at ht
  obtain ⟨⟨hidm, hmisc⟩, htx⟩ := ht
  cases hido : t.id with
  | vnone => rw [hido] at hidm; cases hidm
  | vint n => rw [hido] at hidm; cases hidm
  | vstr s =>
      rw [hido] at hidm
      have hmm : mwtMiscMatch "MWT=Yes" = true := by decide
      have hidm2 : (mwtIdMatch s).isSome = true := hidm
      have hstrip : mwtStripMisc t = some { t with misc := .vnone } := by
        unfold mwtStripMisc
        simp [hmisc]
      have hwords : omapM
          (fun je => wordFromEntry
            { id := some (.vstr (natStr (0 + 1 + je.1))), text := some (.vstr je.2) })
          ((pySplit ' ' exp).filter fun x => x ≠ "").enum = some (pieceWords exp) := by
        rw [show ((pySplit ' ' exp).filter fun x => x ≠ "") = pieces exp from rfl]
        unfold pieceWords
        refine omapM_eq_map _ _ _ ?_
        intro je hje
        have hpe : je.2 ∈ pieces exp := enum_snd_mem (pieces exp) je hje
        have hgood := pieceEntry_good (1 + je.1) je.2 (pieces_mem_ne exp je.2 hpe)
        simp only [goodEntry, Bool.and_eq_true] at hgood
        have := wordFromEntry_simple (pieceEntry (1 + je.1) je.2) hgood.1.1
        rw [show (0 : Nat) + 1 + je.1 = 1 + je.1 from by omega]
        exact this
      unfold mwtTokenStep
      simp only [hido, hmisc, hmm, hidm2, Bool.not_true, Bool.false_and, Bool.and_false,
        Option.pure_def, Option.bind_eq_bind, Option.some_bind, reduceIte, hE, hstrip,
        hwords]
      rw [show (0 : Nat) + 1 + ((pySplit ' ' exp).filter fun x => x ≠ "").length - 1 =
        (pieces exp).length from by
          rw [show ((pySplit ' ' exp).filter fun x => x ≠ "") = pieces exp from rfl]; omega]
      rw [show (0 : Nat) + 1 = 1 from rfl]
      rfl

theorem mwtTokensAux_mwt1 (exps : List String) (idxE : Nat) (t : Token) (exp : String)
    (ht : mwtTok1 t = true) (hE : exps.get? idxE = some exp)
    (hp : 1 ≤ (pieces exp).length) :
    mwtTokensAux exps [t] 0 idxE = some ([mwtNewTok t exp], idxE + 1) := by
  rw [mwtTokensAux, mwtTokenStep_mwt1 exps idxE t exp ht hE hp]
  simp [mwtTokensAux]

/-- The `_process_tokens` loop in attach mode: plain dependency-free entries
whose ids fall inside the open range are appended to the last token's word
list. -/
theorem processTokensAux_attach :
    ∀ (es : List Entry) (st en : Int) (toks0 : List Token) (tok : Token)
      (ws0 : List Word) (i : Nat),
      (∀ e ∈ es, goodEntry e = true) →
      (∀ e ∈ es, ∀ k, pyInt (e.id.getD .vnone) = some k → k ≤ en) →
      tok.startChar = .vnone → tok.endChar = .vnone →
      processTokensAux ⟨st, en, toks0 ++ [tok], ws0⟩ i es =
        some ⟨st, en, toks0 ++ [{ tok with words := tok.words ++ es.map simpleWord }],
          ws0 ++ es.map simpleWord⟩
  | [], st, en, toks0, tok, ws0, i, _, _, _, _ => by
      simp [processTokensAux]
  | e :: es2, st, en, toks0, tok, ws0, i, hg, hle, hsc, hec => by
      have hge := hg e (by simp)
      have hse : simpleEntry e = true := by
        simp only [goodEntry, Bool.and_eq_true] at hge
        exact hge.1.1
      have h0 := hse
      simp only [simpleEntry, Bool.and_eq_true, decide_eq_true_eq] at h0
      obtain ⟨⟨⟨hid, htext⟩, hmisc⟩, hhead⟩ := h0
      obtain ⟨s, k, hido, hparse, hk, hmatch, htr⟩ := idOkB_elim e.id hid
      have hpyv : pyInt (Value.vstr s) = some k := hparse
      have hpy : pyInt (e.id.getD .vnone) = some k := by rw [hido]; exact hpyv
      have hkle : k ≤ en := hle e (by simp) k hpy
      rw [processTokensAux]
      have hpe : processEntry ⟨st, en, toks0 ++ [tok], ws0⟩ i e =
          some ⟨st, en, toks0 ++ [{ tok with words := tok.words ++ [simpleWord e] }],
            ws0 ++ [simpleWord e]⟩ := by
        unfold processEntry
        rw [if_neg (by rw [hido]; simp)]
        simp only [hido, hmisc, Option.getD_some, Option.getD_none, hmatch,
          Option.isSome_none, Bool.false_or, Bool.or_false, Bool.or_self,
          Option.bind_eq_bind, Option.some_bind, wordFromEntry_simple e hse, hpyv]
        rw [if_pos hkle]
        simp only [List.getLast?_concat, Option.some_bind, List.dropLast_concat,
          Option.pure_def, Option.some.injEq]
        rw [hsc, hec, withParent_self (simpleWord e) rfl rfl]
        simp
      rw [hpe]
      simp only [Option.bind_eq_bind, Option.some_bind]
      rw [processTokensAux_attach es2 st en toks0
        { tok with words := tok.words ++ [simpleWord e] } (ws0 ++ [simpleWord e]) (i + 1)
        (fun x hx => hg x (by simp [hx])) (fun x hx => hle x (by simp [hx])) hsc hec]
      simp [List.append_assoc]

theorem mwtIdMatch_empty : mwtIdMatch "" = none := rfl

theorem enum_mem_bounds {α : Type} (l : List α) : ∀ p ∈ l.enum, p.1 < l.length := by
  show ∀ p ∈ l.enumFrom 0, p.1 < l.length
  rw [List.forall_mem_enumFrom]
  intro i hi
  simpa using hi

/-- Processing a range-id shell entry with no misc: open the range and append
an empty shell token. -/
theorem processEntry_shell (st en : Int) (i : Nat) (rid : String) (tx : Value) (a b : Nat)
    (hm : mwtIdMatch rid = some (a, b)) (htx : truthy tx = true) :
    processEntry ⟨st, en, [], []⟩ i { id := some (.vstr rid), text := some tx, misc := none } =
      some ⟨(a : Int), (b : Int), [{ id := .vstr rid, text := tx, misc := .vnone, words := [] }], []⟩ := by
  have hrne : rid ≠ "" := by
    intro hh
    rw [hh, mwtIdMatch_empty] at hm
    cases hm
  have htne : tx ≠ .vnone := by
    intro hh
    rw [hh] at htx
    cases htx
  have htok : tokenFromEntry { id := some (.vstr rid), text := some tx, misc := none } [] =
      some { id := .vstr rid, text := tx, misc := .vnone, words := [] } := by
    unfold tokenFromEntry
    simp only [Option.getD_some, Option.getD_none]
    have hidv : truthy (Value.vstr rid) = true := by simp [truthy, hrne]
    have hcond : (truthy (Value.vstr rid) && truthy tx) = true := by rw [hidv, htx]; rfl
    rw [if_pos hcond]
    simp [optVal, isNull]
  unfold processEntry
  rw [if_neg (by simp)]
  simp only [Option.getD_some, Option.getD_none, hm, Option.isSome_some, Bool.true_or,
    Option.bind_eq_bind, Option.some_bind, Option.pure_def, reduceIte, htok]
  simp

/-- Processing a shell entry followed by in-range plain dependency-free word
entries: a single token owning all the words, and no dependency rebuild. -/
theorem processTokensOn_shell (s0 : Sentence) (rid : String) (tx : Value) (wes : List Entry)
    (a b : Nat) (hm : mwtIdMatch rid = some (a, b)) (htx : truthy tx = true)
    (hg : ∀ e ∈ wes, goodEntry e = true) (hne : wes ≠ [])
    (hle : ∀ e ∈ wes, ∀ k, pyInt (e.id.getD .vnone) = some k → k ≤ (b : Int)) :
    Sentence.processTokensOn s0 ({ id := some (.vstr rid), text := some tx, misc := none } :: wes) =
      some { s0 with tokens := [{ id := .vstr rid, text := tx, misc := .vnone, words := wes.map simpleWord }], words := wes.map simpleWord } := by
  unfold Sentence.processTokensOn
  rw [processTokensAux, processEntry_shell (-1) (-1) 0 rid tx a b hm htx]
  simp only [Option.bind_eq_bind, Option.some_bind]
  have hloop := processTokensAux_attach wes (a : Int) (b : Int) []
    { id := .vstr rid, text := tx, misc := .vnone, words := [] } [] 1 hg hle rfl rfl
  simp only [List.nil_append] at hloop
  rw [hloop]
  simp only [Option.bind_eq_bind, Option.some_bind]
  have hwne : wes.map simpleWord ≠ [] := by simpa using hne
  obtain ⟨lastW, hlast⟩ := pyIndex_neg_one_of_ne_nil (wes.map simpleWord) hwne
  rw [hlast]
  simp only [Option.some_bind]
  have hmem := pyIndex_neg_one_mem _ _ hlast
  rw [List.mem_map] at hmem
  obtain ⟨e0, he0, rfl⟩ := hmem
  have hge0 := hg e0 he0
  simp only [goodEntry, Bool.and_eq_true, decide_eq_true_eq] at hge0
  obtain ⟨⟨hse0, hhd0⟩, _⟩ := hge0
  have h00 := hse0
  simp only [simpleEntry, Bool.and_eq_true, decide_eq_true_eq] at h00
  obtain ⟨⟨⟨hid, _⟩, _⟩, _⟩ := h00
  obtain ⟨s, k, hido, hparse, _, _, _⟩ := idOkB_elim e0.id hid
  have hpid : pyInt (simpleWord e0).id = some k := by
    rw [show (simpleWord e0).id = e0.id.getD .vnone from rfl, hido]
    exact hparse
  rw [hpid]
  simp only [Option.some_bind]
  have hfalse : ((wes.map simpleWord).all fun w => w.head ≠ .vnone && w.deprel ≠ .vnone) = false := by
    rw [List.all_eq_false]
    refine ⟨simpleWord e0, List.mem_map_of_mem _ he0, ?_⟩
    rw [hhd0]
    simp
  rw [hfalse]
  simp

theorem pieceWords_length (exp : String) :
    (pieceWords exp).length = (pieces exp).length := by
  simp [pieceWords]

theorem pieceWords_simpleWord_roundtrip (exp : String) :
    ((pieceWords exp).map Word.toDict).map simpleWord = pieceWords exp := by
  rw [List.map_map]
  have hpt : ∀ w ∈ pieceWords exp, (simpleWord ∘ Word.toDict) w = w := by
    intro w hw
    unfold pieceWords at hw
    rw [List.mem_map] at hw
    obtain ⟨ip, hip, rfl⟩ := hw
    have hgood := pieceEntry_good (1 + ip.1) ip.2
      (pieces_mem_ne exp ip.2 (enum_snd_mem _ ip hip))
    simp only [goodEntry, Bool.and_eq_true] at hgood
    exact (normEntry_spec _ hgood.1.1).2.1
  exact (List.map_congr_left hpt).trans (List.map_id _)

/-- Serializing and reprocessing an expanded multi-word token reproduces the
same token and word list. -/
theorem processTokensOn_mwtOut (s0 : Sentence) (tx : Value) (exp : String)
    (htx : truthy tx = true) (hp : 2 ≤ (pieces exp).length) :
    Sentence.processTokensOn s0 (Token.toDict (mwtOutTok tx exp)) =
      some { s0 with tokens := [mwtOutTok tx exp], words := pieceWords exp } := by
  have htne : tx ≠ .vnone := by
    intro hh
    rw [hh] at htx
    cases htx
  have hlen1 : (mwtOutTok tx exp).words.length ≠ 1 := by
    rw [show (mwtOutTok tx exp).words = pieceWords exp from rfl, pieceWords_length]
    omega
  have hdict : Token.toDict (mwtOutTok tx exp) =
      { id := some (.vstr (natStr 1 ++ "-" ++ natStr (pieces exp).length)), text := some tx, misc := none } ::
        (pieceWords exp).map Word.toDict := by
    unfold Token.toDict
    rw [if_pos hlen1]
    rw [show optOf (mwtOutTok tx exp).id =
      some (.vstr (natStr 1 ++ "-" ++ natStr (pieces exp).length)) from by
        simp [optOf, mwtOutTok]]
    rw [show optOf (mwtOutTok tx exp).text = some tx from by simp [optOf, mwtOutTok, htne]]
    rfl
  rw [hdict]
  have hgw : ∀ e ∈ (pieceWords exp).map Word.toDict, goodEntry e = true := by
    intro e he
    rw [List.mem_map] at he
    obtain ⟨w, hw, rfl⟩ := he
    unfold pieceWords at hw
    rw [List.mem_map] at hw
    obtain ⟨ip, hip, rfl⟩ := hw
    exact goodEntry_toDict _ (pieceEntry_good (1 + ip.1) ip.2
      (pieces_mem_ne exp ip.2 (enum_snd_mem _ ip hip)))
  have hnew : (pieceWords exp).map Word.toDict ≠ [] := by
    intro hh
    have h2 := congrArg List.length hh
    rw [List.length_map, pieceWords_length] at h2
    simp only [List.length_nil] at h2
    omega
  have hlew : ∀ e ∈ (pieceWords exp).map Word.toDict, ∀ k,
      pyInt (e.id.getD .vnone) = some k → k ≤ ((pieces exp).length : Int) := by
    intro e he k hk
    rw [List.mem_map] at he
    obtain ⟨w, hw, rfl⟩ := he
    unfold pieceWords at hw
    rw [List.mem_map] at hw
    obtain ⟨ip, hip, rfl⟩ := hw
    have hbound := enum_mem_bounds (pieces exp) ip hip
    have hidw : (Word.toDict (simpleWord (pieceEntry (1 + ip.1) ip.2))).id =
        some (.vstr (natStr (1 + ip.1))) := by
      show optOf (simpleWord (pieceEntry (1 + ip.1) ip.2)).id = _
      rw [show (simpleWord (pieceEntry (1 + ip.1) ip.2)).id = .vstr (natStr (1 + ip.1)) from rfl]
      simp [optOf, natStr_ne_empty]
    rw [hidw, Option.getD_some, pyInt_natStr] at hk
    injection hk with hk2
    omega
  rw [processTokensOn_shell s0 _ tx _ 1 (pieces exp).length
    (mwtIdMatch_range 1 (pieces exp).length) htx hgw hnew hlew]
  rw [pieceWords_simpleWord_roundtrip]
  rfl

/-- One sentence of `set_mwt_expansions` holding a single multi-word token:
the next expansion is consumed and the sentence rebuilt around the expanded
token. -/
theorem mwtSentenceStep_mwt1 (exps : List String) (s : Sentence) (idxE : Nat)
    (t : Token) (exp : String)
    (hts : s.tokens = [t]) (ht : mwtTok1 t = true)
    (hE : exps.get? idxE = some exp) (hp : 2 ≤ (pieces exp).length) :
    mwtSentenceStep exps s idxE =
      some ({ s with tokens := [mwtOutTok t.text exp], words := pieceWords exp }, idxE + 1) := by
  have htx : truthy t.text = true := by
    simp only [mwtTok1, Bool.and_eq_true] at ht
    exact ht.2
  unfold mwtSentenceStep
  rw [hts, mwtTokensAux_mwt1 exps idxE t exp ht hE (by omega)]
  simp only [Option.bind_eq_bind, Option.some_bind]
  have hdic : Sentence.toDict { s with tokens := [mwtNewTok t exp] } =
      Token.toDict (mwtOutTok t.text exp) := by
    show (List.map Token.toDict [mwtNewTok t exp]).flatten = _
    simp only [List.map_cons, List.map_nil, List.flatten_cons, List.flatten_nil,
      List.append_nil]
    rfl
  rw [hdic, processTokensOn_mwtOut _ t.text exp htx hp]
  rfl

/-- The sentence loop of `set_mwt_expansions` over single-multi-word-token
sentences: one expansion is consumed per sentence, in order. -/
theorem mwtSentencesAux_mwt1 (exps : List String) :
    ∀ (ss : List Sentence) (es : List String) (idxE : Nat),
      es.length = ss.length →
      (∀ j, j < es.length → exps.get? (idxE + j) = es.get? j) →
      (∀ s ∈ ss, ∃ t, s.tokens = [t] ∧ mwtTok1 t = true) →
      (∀ e ∈ es, 2 ≤ (pieces e).length) →
      ∃ ss2, mwtSentencesAux exps ss idxE = some (ss2, idxE + ss.length) ∧
        List.Forall₂ (fun (s2 : Sentence) (e : String) => 2 ≤ (pieces e).length ∧
          ∃ tx, truthy tx = true ∧ s2.tokens = [mwtOutTok tx e]) ss2 es
  | [], [], idxE, _, _, _, _ => ⟨[], by simp [mwtSentencesAux], List.Forall₂.nil⟩
  | [], e :: es, idxE, hlen, _, _, _ => by simp at hlen
  | s :: ss, [], idxE, hlen, _, _, _ => by simp at hlen
  | s :: ss, e :: es, idxE, hlen, hget, hone, hp => by
      obtain ⟨t, hts, htm⟩ := hone s (by simp)
      have hE0 : exps.get? idxE = some e := by
        have h0 := hget 0 (by simp)
        rw [Nat.add_zero] at h0
        exact h0
      have hstep := mwtSentenceStep_mwt1 exps s idxE t e hts htm hE0 (hp e (by simp))
      have hget2 : ∀ j, j < es.length → exps.get? (idxE + 1 + j) = es.get? j := by
        intro j hj
        have h2 := hget (j + 1) (by simp; omega)
        rw [show idxE + (j + 1) = idxE + 1 + j from by omega] at h2
        exact h2
      obtain ⟨ss2, hrec, hF⟩ := mwtSentencesAux_mwt1 exps ss es (idxE + 1)
        (by simpa using hlen) hget2 (fun x hx => hone x (by simp [hx]))
        (fun x hx => hp x (by simp [hx]))
      refine ⟨{ s with tokens := [mwtOutTok t.text e], words := pieceWords e } :: ss2, ?_, ?_⟩
      · rw [mwtSentencesAux, hstep]
        simp only [Option.bind_eq_bind, Option.some_bind, hrec, Option.pure_def,
          Option.some.injEq, Prod.mk.injEq, List.length_cons]
        exact ⟨trivial, by omega⟩
      · exact List.Forall₂.cons ⟨hp e (by simp), t.text, (by
          simp only [mwtTok1, Bool.and_eq_true] at htm
          exact htm.2), rfl⟩ hF

theorem mwtOutTok_flag (tx : Value) (exp : String) :
    (mwtOutTok tx exp).mwtFlag = some true := by
  unfold Token.mwtFlag
  rw [show (mwtOutTok tx exp).id = .vstr (natStr 1 ++ "-" ++ natStr (pieces exp).length) from rfl]
  rw [show (mwtOutTok tx exp).misc = Value.vnone from rfl]
  simp [mwtIdMatch_range]

theorem mwtOutTok_join (tx : Value) (exp : String) :
    (mwtOutTok tx exp).joinWordTexts = some (String.intercalate " " (pieces exp)) := by
  unfold Token.joinWordTexts
  rw [show (mwtOutTok tx exp).words = pieceWords exp from rfl]
  unfold pieceWords
  rw [omapM_comp_map]
  rw [omapM_eq_map
    (fun a : Nat × String =>
      match (simpleWord (pieceEntry (1 + a.1) a.2)).text with
      | Value.vstr s => some s
      | _ => none)
    Prod.snd _ (fun ip hip => rfl)]
  rw [show ((pieces exp).enum.map Prod.snd) = pieces exp from enumFrom_map_snd 0 (pieces exp)]
  rfl

/-- The `get_mwt_expansions` scan over expanded multi-word tokens: one pair
per token, destinations given by the joined word texts. -/
theorem mwtPairs_fold :
    ∀ (tl : List Token) (es : List String) (acc : List (Value × String)),
      List.Forall₂ (fun (tok : Token) (e : String) => tok.mwtFlag = some true ∧
        tok.joinWordTexts = some (String.intercalate " " (pieces e))) tl es →
      ∃ pairs, ofoldlM mwtPairStep acc tl = some (acc ++ pairs) ∧
        pairs.map Prod.snd = es.map fun e => String.intercalate " " (pieces e)
  | [], [], acc, _ => ⟨[], by simp [ofoldlM], rfl⟩
  | [], e :: es, acc, h => nomatch h
  | tok :: tl, [], acc, h => nomatch h
  | tok :: tl, e :: es, acc, h => by
      cases h with
      | cons hte hrest =>
          obtain ⟨hflag, hjoin⟩ := hte
          have hstep : mwtPairStep acc tok =
              some (acc ++ [(tok.text, String.intercalate " " (pieces e))]) := by
            unfold mwtPairStep
            rw [hflag]
            simp only [Option.bind_eq_bind, Option.some_bind, hjoin, if_true, reduceIte,
              Option.pure_def]
          obtain ⟨pairs, hfold, hsnd⟩ :=
            mwtPairs_fold tl es (acc ++ [(tok.text, String.intercalate " " (pieces e))]) hrest
          refine ⟨(tok.text, String.intercalate " " (pieces e)) :: pairs, ?_, ?_⟩
          · rw [ofoldlM, hstep]
            simp only [Option.bind_eq_bind, Option.some_bind]
            rw [hfold]
            simp
          · simp [hsnd]

/-- Rebuilding an expanded single-multi-word-token sentence from its
serialization (as `_process_sentences` does) reproduces the token. -/
theorem rebuild_mwtOut (dtv : Value) (s2 : Sentence) (tx : Value) (e : String)
    (htx : truthy tx = true) (hp : 2 ≤ (pieces e).length)
    (hts : s2.tokens = [mwtOutTok tx e]) :
    (mkSentence s2.toDict).bind (sentenceWithDocText dtv) =
      some { tokens := [mwtOutTok tx e], words := pieceWords e, dependencies := [], text := .vnone } := by
  have hdic : s2.toDict = Token.toDict (mwtOutTok tx e) := by
    unfold Sentence.toDict
    rw [hts]
    simp
  rw [show mkSentence s2.toDict = Sentence.processTokensOn {} s2.toDict from rfl]
  rw [hdic, processTokensOn_mwtOut {} tx e htx hp]
  rw [show ((some ({ ({} : Sentence) with tokens := [mwtOutTok tx e], words := pieceWords e })).bind (sentenceWithDocText dtv)) = sentenceWithDocText dtv { ({} : Sentence) with tokens := [mwtOutTok tx e], words := pieceWords e } from rfl]
  exact sentenceWithDocText_id dtv _ (by simp) (by intro t ht; rw [List.mem_singleton] at ht; subst ht; rfl)

theorem omapM_forall2 {α β γ : Type} (f : α → Option β) (R : β → γ → Prop) :
    ∀ (l : List α) (cs : List γ),
      List.Forall₂ (fun a c => ∃ b, f a = some b ∧ R b c) l cs →
      ∃ out, omapM f l = some out ∧ List.Forall₂ R out cs
  | [], [], _ => ⟨[], rfl, .nil⟩
  | [], c :: cs, h => nomatch h
  | a :: l, [], h => nomatch h
  | a :: l, c :: cs, h => by
      cases h with
      | cons hac hrest =>
          obtain ⟨b, hb, hR⟩ := hac
          obtain ⟨out, hout, hF⟩ := omapM_forall2 f R l cs hrest
          refine ⟨b :: out, ?_, .cons hR hF⟩
          rw [omapM, hb]
          simp only [Option.bind_eq_bind, Option.some_bind, hout]
          rfl

/-- Flattening the token lists of single-token sentences whose tokens are
expanded multi-word tokens. -/
theorem mwtOut_flatten :
    ∀ (ss3 : List Sentence) (es : List String),
      List.Forall₂ (fun (s3 : Sentence) (e : String) =>
        ∃ tx, truthy tx = true ∧ s3.tokens = [mwtOutTok tx e]) ss3 es →
      ∃ tl, (ss3.map Sentence.tokens).flatten = tl ∧
        List.Forall₂ (fun (tok : Token) (e : String) => tok.mwtFlag = some true ∧
          tok.joinWordTexts = some (String.intercalate " " (pieces e))) tl es
  | [], [], _ => ⟨[], rfl, .nil⟩
  | [], e :: es, h => nomatch h
  | s3 :: ss3, [], h => nomatch h
  | s3 :: ss3, e :: es, h => by
      cases h with
      | cons hse hrest =>
          obtain ⟨tx, htx, hts⟩ := hse
          obtain ⟨tl, htl, hF⟩ := mwtOut_flatten ss3 es hrest
          refine ⟨mwtOutTok tx e :: tl, ?_, .cons ⟨mwtOutTok_flag tx e, mwtOutTok_join tx e⟩ hF⟩
          simp only [List.map_cons, List.flatten_cons, hts, htl, List.singleton_append]

/-- Reduction of `set_mwt_expansions` when both phases succeed and the count
assert passes. -/
theorem setMwtExpansions_ok_spec (d : Document) (exps : List String) (ss2 : List Sentence)
    (idxE : Nat) (d2 : Document)
    (h1 : mwtSentencesAux exps d.sentences 0 = some (ss2, idxE))
    (h2 : Document.processSentences { d with sentences := ss2 }
        (Document.toDict { d with sentences := ss2 }) = some d2)
    (h3 : idxE = exps.length) :
    d.setMwtExpansions exps = .ok d2 := by
  unfold Document.setMwtExpansions
  rw [h1]
  simp only [h2, if_pos h3]

/-- **C8 (amended).** On a document whose sentences each hold a single
unexpanded multi-word token and an expansion list with one entry per
sentence, each splitting into at least two nonempty whitespace pieces,
`set_mwt_expansions(expansions)` succeeds and a subsequent
`get_mwt_expansions(evaluation=False)` returns one pair per multi-word token
in document order whose destination is the single-space join of the nonempty
pieces of the supplied expansion — the supplied text itself only up to
whitespace normalization, and not at all when an expansion has fewer than
two pieces. -/
theorem c8_set_get_pieces (d : Document) (exps : List String)
    (hlen : exps.length = d.sentences.length)
    (hone : ∀ s ∈ d.sentences, ∃ t, s.tokens = [t] ∧ mwtTok1 t = true)
    (hp : ∀ e ∈ exps, 2 ≤ (pieces e).length) :
    ∃ d2 pairs, d.setMwtExpansions exps = .ok d2 ∧
      d2.getMwtExpansions = some pairs ∧
      pairs.map Prod.snd = exps.map fun e => String.intercalate " " (pieces e) := by
  obtain ⟨ss2, hloop, hF⟩ := mwtSentencesAux_mwt1 exps d.sentences exps 0
    hlen (fun j hj => by rw [Nat.zero_add]) hone hp
  have hF2 : List.Forall₂ (fun (s2 : Sentence) (e : String) =>
      ∃ s3, (mkSentence s2.toDict).bind (sentenceWithDocText d.text) = some s3 ∧
        ∃ tx, truthy tx = true ∧ s3.tokens = [mwtOutTok tx e]) ss2 exps := by
    refine List.Forall₂.imp ?_ hF
    intro s2 e h2
    obtain ⟨hpe, tx, htx, hts⟩ := h2
    exact ⟨_, rebuild_mwtOut d.text s2 tx e htx hpe hts, tx, htx, rfl⟩
  obtain ⟨ss3, homap, hF3⟩ := omapM_forall2
    (fun s2 => (mkSentence s2.toDict).bind (sentenceWithDocText d.text))
    (fun s3 e => ∃ tx, truthy tx = true ∧ s3.tokens = [mwtOutTok tx e])
    ss2 exps hF2
  have hkey : Document.processSentences { d with sentences := ss2 }
      (Document.toDict { d with sentences := ss2 }) =
      some { d with sentences := ss3, numWords := (ss3.map fun s => s.words.length).sum } := by
    rw [processSentences_eq]
    rw [show Document.toDict { d with sentences := ss2 } = ss2.map Sentence.toDict from rfl]
    rw [show ({ d with sentences := ss2 } : Document).text = d.text from rfl]
    rw [omapM_comp_map]
    rw [homap]
    rfl
  have h3 : 0 + d.sentences.length = exps.length := by omega
  have hok := setMwtExpansions_ok_spec d exps ss2 (0 + d.sentences.length) _ hloop hkey h3
  obtain ⟨tl, htl, hFtl⟩ := mwtOut_flatten ss3 exps hF3
  obtain ⟨pairs, hfold, hsnd⟩ := mwtPairs_fold tl exps [] hFtl
  refine ⟨_, pairs, hok, ?_, hsnd⟩
  unfold Document.getMwtExpansions
  rw [show (({ d with sentences := ss3, numWords := (ss3.map fun s => s.words.length).sum } : Document).sentences) = ss3 from rfl]
  rw [htl, hfold]
  simp

/-- Document with a single multi-word token `1-2` covering two words. -/
def c8entries : List (List Entry) := [[entryMwt "1-2" "xy", entryIT "1" "x", entryIT "2" "y"]]

/-- See `c8entries`. -/
def c8doc : Document := (mkDocument c8entries .vnone).getD {}

/-- The document produced by expanding the multi-word token of `c8doc` to a
single one-word expansion. -/
def c8exp : Document := match c8doc.setMwtExpansions ["word"] with | .ok d => d | _ => {}

/-- C8 counterexample: a one-word expansion is accepted by
`set_mwt_expansions` (the count assert passes), but the expanded token's
serialization drops its token line, so after reprocessing the token is no
longer multi-word and `get_mwt_expansions` returns no pair at all for it —
not a pair whose destination is the supplied text. -/
theorem c8_one_word_expansion_loses_pair :
    mkDocument c8entries .vnone = some c8doc ∧
    c8doc.getMwtExpansions = some [(.vstr "xy", "x y")] ∧
    c8doc.setMwtExpansions ["word"] = .ok c8exp ∧
    c8exp.getMwtExpansions = some [] :=
  ⟨rfl, by decide, by decide, by decide⟩

/-- The multi-word token of `c8doc`. -/
def c8tok : Token := (c8doc.sentences.getD 0 {}).tokens.getD 0 {}

/-- Witness for the amended C8 at a concrete input: expanding the `1-2`
token of `c8doc` with `"u v"` and reading the expansions back yields the
destination `"u v"`. -/
theorem c8_set_get_pieces_witness :
    (["u v"] : List String).length = c8doc.sentences.length ∧
    ∃ d2 pairs, c8doc.setMwtExpansions ["u v"] = .ok d2 ∧
      d2.getMwtExpansions = some pairs ∧
      pairs.map Prod.snd = (["u v"] : List String).map fun e => String.intercalate " " (pieces e) :=
  ⟨by decide, c8_set_get_pieces c8doc ["u v"] (by decide)
    (by
      intro s hs
      have hlist : c8doc.sentences = [c8doc.sentences.getD 0 {}] := by decide
      rw [hlist, List.mem_singleton] at hs
      subst hs
      exact ⟨c8tok, by decide, by decide⟩)
    (by decide)⟩
